import Mathlib

/-!
A sequential model of `LockFreeSPMCQueue` (src/spmc.hpp).

The queue of `src/spmc.hpp` is embedded as pure state-passing functions.  Every
public member function is executed atomically (one whole call at a time), so an
interleaving of threads is a list of whole calls.  `size_t` and `uint64_t` are
natural numbers reduced modulo `2 ^ 64` wherever the source does arithmetic on
them.  The element type `T` comes with the state `moved_from` in which its move
constructor leaves the source (the source itself for the `int` of
`src/benchmark.cpp`); the raw bytes of a slot that was never written are the
value `default`.
-/

namespace SPMC

/-- Number of values of `size_t` and of `uint64_t` (both 64 bits wide). -/
def WORD : Nat := 2 ^ 64

/-- What the queue uses of its element type `T`: the value that zeroed raw
storage stands for (`default`), and `moved_from x`, the state in which the move
constructor `T(std::move(x))` leaves its source `x`. -/
class Element (T : Type) extends Inhabited T where
  moved_from : T → T

/-- The benchmark's element type `int`, here the natural numbers: trivially
copyable, so a move leaves the source as it was. -/
instance : Element Nat := { default := 0, moved_from := fun x => x }

/-- The element type `std::vector<int>`, here lists of numbers: copyable, and
its move constructor leaves the source empty. -/
instance : Element (List Nat) := { default := [], moved_from := fun _ => [] }

/-- The element type's move constructor leaves its source unchanged, as it does
for every trivially copyable type. -/
def MoveIsCopy (T : Type) [Element T] : Prop := ∀ x : T, Element.moved_from x = x

/-- Compile-time constants of one instantiation `LockFreeSPMCQueue<T, SIZE>`:
the template argument `SIZE`, the macro `CACHE_LINE_SIZE` (64 unless overridden)
and `sizeof(Node)`, which depends on `T`. -/
structure Config where
  SIZE : Nat
  CACHE_LINE_SIZE : Nat
  NODE_SIZE : Nat
deriving DecidableEq

/-- `struct Node`: the version counter and the storage of one element. -/
structure Node (T : Type) where
  version_ : Nat
  storage_ : T
deriving DecidableEq

/-- `Node() noexcept = default` under value initialisation: version 0, zeroed storage. -/
instance {T : Type} [Inhabited T] : Inhabited (Node T) := ⟨⟨0, default⟩⟩

/-- `~Node()`: the element destructor runs on the storage exactly when the version
is odd.  The result lists the elements on which `~T()` is invoked. -/
def Node.dtor {T : Type} (n : Node T) : List T :=
  if n.version_ % 2 == 1 then [n.storage_] else []

/-- Data members of `LockFreeSPMCQueue`: the write counter and the node array. -/
structure LockFreeSPMCQueue (T : Type) where
  write_counter_ : Nat
  buffer_ : List (Node T)
deriving DecidableEq

/-- `class Reader`: the private cursor.  The reference `queue_` is the queue that
is passed to every reader operation. -/
structure Reader where
  read_position_ : Nat
deriving DecidableEq

namespace LockFreeSPMCQueue

/-- `CAPACITY = SIZE`. -/
def CAPACITY (cfg : Config) : Nat := cfg.SIZE

/-- `IS_POWER_OF_TWO = (CAPACITY & (CAPACITY - 1)) == 0`, the subtraction being
the wrapping subtraction of `size_t`. -/
def IS_POWER_OF_TWO (cfg : Config) : Bool :=
  (CAPACITY cfg &&& ((CAPACITY cfg + WORD - 1) % WORD)) == 0

/-- `INDEX_MASK = IS_POWER_OF_TWO ? (CAPACITY - 1) : 0`. -/
def INDEX_MASK (cfg : Config) : Nat :=
  if IS_POWER_OF_TWO cfg then (CAPACITY cfg + WORD - 1) % WORD else 0

/-- `PADDING = CACHE_LINE_SIZE / sizeof(Node)`. -/
def PADDING (cfg : Config) : Nat := cfg.CACHE_LINE_SIZE / cfg.NODE_SIZE

/-- `BUFFER_SIZE = CAPACITY + 2 * PADDING`, a `size_t` sum. -/
def BUFFER_SIZE (cfg : Config) : Nat := (CAPACITY cfg + 2 * PADDING cfg) % WORD

/-- The subscript of `buffer_` that `get_node(idx)` selects, a `size_t` sum. -/
def get_node_index (cfg : Config) (idx : Nat) : Nat :=
  if IS_POWER_OF_TWO cfg then (PADDING cfg + (idx &&& INDEX_MASK cfg)) % WORD
  else (PADDING cfg + (idx % CAPACITY cfg)) % WORD

/-- `get_node(idx)`: the node that the subscript selects. -/
def get_node {T : Type} [Element T] (cfg : Config) (q : LockFreeSPMCQueue T)
    (idx : Nat) : Node T :=
  q.buffer_.getD (get_node_index cfg idx) default

/-- The constructor `LockFreeSPMCQueue()`: counter 0 and `BUFFER_SIZE`
value-initialised nodes. -/
def ctor {T : Type} [Element T] (cfg : Config) : LockFreeSPMCQueue T :=
  { write_counter_ := 0, buffer_ := List.replicate (BUFFER_SIZE cfg) default }

/-- `~LockFreeSPMCQueue()`: releasing `buffer_` destroys every node of the array,
last subscript first.  The result lists, in order, the subscript and the element
of every `~T()` call. -/
def dtor {T : Type} (q : LockFreeSPMCQueue T) : List (Nat × T) :=
  (List.range q.buffer_.length).reverse.flatMap
    (fun i => match q.buffer_[i]? with
      | some n => (Node.dtor n).map (fun x => (i, x))
      | none => [])

/-- `write_position()`. -/
def write_position {T : Type} (q : LockFreeSPMCQueue T) : Nat := q.write_counter_

/-- `enqueue(item)`, statement by statement. -/
def enqueue {T : Type} [Element T] (cfg : Config) (q : LockFreeSPMCQueue T)
    (item : T) : Bool × LockFreeSPMCQueue T :=
  let write_pos := q.write_counter_
  let q1 : LockFreeSPMCQueue T := { q with write_counter_ := (q.write_counter_ + 1) % WORD }
  let i := get_node_index cfg write_pos
  let node := q1.buffer_.getD i default
  let curr_version := node.version_
  let new_version := (curr_version + 1) % WORD
  let node1 : Node T := if curr_version % 2 == 1 then { node with version_ := new_version } else node
  let new_version1 := if curr_version % 2 == 1 then (new_version + 1) % WORD else new_version
  let node2 : Node T := { node1 with storage_ := item }
  let node3 : Node T := { node2 with version_ := new_version1 }
  (true, { q1 with buffer_ := q1.buffer_.set i node3 })

/-- `compare_exchange_strong(expected, desired)` on a version: the stored value
becomes `desired` when it equals `expected`. -/
def compare_exchange_strong (current expected desired : Nat) : Nat :=
  if current == expected then desired else current

/-- `try_read_at(position)`, statement by statement: the result is
move-constructed from the element in the slot, which is left in its moved-from
state, and the version is then advanced by the compare-exchange. -/
def try_read_at {T : Type} [Element T] (cfg : Config) (q : LockFreeSPMCQueue T)
    (position : Nat) : Option T × LockFreeSPMCQueue T :=
  let i := get_node_index cfg position
  let node := q.buffer_.getD i default
  let version := node.version_
  if version % 2 == 1 then
    let result := some node.storage_
    let node1 : Node T := { node with storage_ := Element.moved_from node.storage_ }
    let node2 : Node T :=
      { node1 with
        version_ := compare_exchange_strong node1.version_ version ((version + 2) % WORD) }
    (result, { q with buffer_ := q.buffer_.set i node2 })
  else
    (none, q)

/-- `empty_at(position)`. -/
def empty_at {T : Type} (q : LockFreeSPMCQueue T) (position : Nat) : Bool :=
  decide (position ≥ q.write_counter_)

/-- `capacity()`. -/
def capacity (cfg : Config) : Nat := CAPACITY cfg

/-- `create_reader()`. -/
def create_reader : Reader := { read_position_ := 0 }

end LockFreeSPMCQueue

namespace Reader

open LockFreeSPMCQueue

/-- `Reader::position()`. -/
def position (r : Reader) : Nat := r.read_position_

/-- `Reader::try_read()`. -/
def try_read {T : Type} [Element T] (cfg : Config) (r : Reader)
    (q : LockFreeSPMCQueue T) : Option T × LockFreeSPMCQueue T :=
  try_read_at cfg q r.read_position_

/-- `Reader::read()`. -/
def read {T : Type} [Element T] (cfg : Config) (r : Reader)
    (q : LockFreeSPMCQueue T) : Option T × Reader × LockFreeSPMCQueue T :=
  let result := try_read cfg r q
  let r1 : Reader :=
    if result.1.isSome then { r with read_position_ := (r.read_position_ + 1) % WORD } else r
  (result.1, r1, result.2)

/-- `Reader::advance(count)`. -/
def advance (r : Reader) (count : Nat) : Reader :=
  { r with read_position_ := (r.read_position_ + count) % WORD }

/-- `Reader::reset(position)`. -/
def reset (r : Reader) (position : Nat) : Reader :=
  { r with read_position_ := position }

end Reader

namespace LockFreeSPMCQueue

/-- `create_reader_at(position)`. -/
def create_reader_at (position : Nat) : Reader :=
  Reader.reset create_reader position

end LockFreeSPMCQueue

open LockFreeSPMCQueue

/-- The producer: `enqueue` called once for each value, in order. -/
def enqueue_all {T : Type} [Element T] (cfg : Config) (q : LockFreeSPMCQueue T)
    (vs : List T) : LockFreeSPMCQueue T :=
  vs.foldl (fun s v => (enqueue cfg s v).2) q

/-- A consumer calling `read()` `n` times in a row; the results are listed in
call order. -/
def read_n {T : Type} [Element T] (cfg : Config) :
    Nat → Reader → LockFreeSPMCQueue T → List (Option T) × Reader × LockFreeSPMCQueue T
  | 0, r, q => ([], r, q)
  | n + 1, r, q =>
    let s := Reader.read cfg r q
    let rest := read_n cfg n s.2.1 s.2.2
    (s.1 :: rest.1, rest.2.1, rest.2.2)

/-- The constants of an instantiation whose buffer can hold its slots: `SIZE` is
at least 1 and `CAPACITY + 2 * PADDING` does not overflow `size_t`, so that
`BUFFER_SIZE` is that sum. -/
def Config.valid (cfg : Config) : Prop :=
  1 ≤ cfg.SIZE ∧ cfg.SIZE + 2 * PADDING cfg < WORD

instance (cfg : Config) : Decidable cfg.valid := by
  unfold Config.valid; infer_instance

/-- The node of logical slot `s` (the subscript `PADDING + s` of `buffer_`). -/
def slot {T : Type} [Element T] (cfg : Config) (q : LockFreeSPMCQueue T) (s : Nat) : Node T :=
  q.buffer_.getD (PADDING cfg + s) default

/-- The slots of a queue into which exactly the values `vs` were enqueued, in
order, with no read since that changed a stored element: a slot below
`vs.length` has an odd version and stores the value of the greatest index that
maps to it, every other slot still has version 0. -/
def Published {T : Type} [Element T] (cfg : Config) (vs : List T)
    (q : LockFreeSPMCQueue T) : Prop :=
  q.buffer_.length = BUFFER_SIZE cfg ∧
  ∀ s, s < cfg.SIZE →
    (vs.length ≤ s → (slot cfg q s).version_ = 0) ∧
    (s < vs.length → (slot cfg q s).version_ % 2 = 1) ∧
    (∀ k, k < vs.length → k % cfg.SIZE = s →
      (∀ j, j < vs.length → j % cfg.SIZE = s → j ≤ k) →
      vs[k]? = some (slot cfg q s).storage_)

/-- The slots of a queue into which exactly the values `vs` were enqueued, in
order, when the slots below `j` may since have been read: versions as in
`Published`, and every slot from `j` on still stores the value of the greatest
index that maps to it. -/
def PublishedFrom {T : Type} [Element T] (cfg : Config) (vs : List T) (j : Nat)
    (q : LockFreeSPMCQueue T) : Prop :=
  q.buffer_.length = BUFFER_SIZE cfg ∧
  ∀ s, s < cfg.SIZE →
    (vs.length ≤ s → (slot cfg q s).version_ = 0) ∧
    (s < vs.length → (slot cfg q s).version_ % 2 = 1) ∧
    (j ≤ s → ∀ k, k < vs.length → k % cfg.SIZE = s →
      (∀ i, i < vs.length → i % cfg.SIZE = s → i ≤ k) →
      vs[k]? = some (slot cfg q s).storage_)

/-- The retry loop of the benchmark producer for one item,
`while (!queue.enqueue(item)) std::this_thread::yield();`.  The result is the
queue after the loop and the number of times the loop body (the `yield`) ran;
`fuel` bounds the number of `enqueue` calls. -/
def produce_retry {T : Type} [Element T] (cfg : Config) :
    Nat → LockFreeSPMCQueue T → T → Option (LockFreeSPMCQueue T × Nat)
  | 0, _, _ => none
  | fuel + 1, q, item =>
    let r := enqueue cfg q item
    if !r.1 then (produce_retry cfg fuel r.2 item).map (fun s => (s.1, s.2 + 1))
    else some (r.2, 0)

/-- One scheduling step of a run with several consumers, each owning one reader
as `consumer_thread` does: consumer `i` makes one whole `read()` call; a present
result is appended to the values that consumer has received. -/
def consumers_step {T : Type} [Element T] (cfg : Config)
    (st : LockFreeSPMCQueue T × List (Reader × List T)) (i : Nat) :
    LockFreeSPMCQueue T × List (Reader × List T) :=
  match st.2[i]? with
  | none => st
  | some c =>
    let s := Reader.read cfg c.1 st.1
    (s.2.2, st.2.set i (s.2.1, match s.1 with
      | some x => c.2 ++ [x]
      | none => c.2))

/-- A run of the consumers under a schedule: the list of the consumers whose
turn it is, one whole `read()` call per entry. -/
def consumers_run {T : Type} [Element T] (cfg : Config)
    (st : LockFreeSPMCQueue T × List (Reader × List T)) (schedule : List Nat) :
    LockFreeSPMCQueue T × List (Reader × List T) :=
  schedule.foldl (consumers_step cfg) st

/-- The start of a run: `R` consumers, each with a reader from `create_reader()`
and nothing received yet. -/
def consumers_start {T : Type} (R : Nat) (q : LockFreeSPMCQueue T) :
    LockFreeSPMCQueue T × List (Reader × List T) :=
  (q, List.replicate R (create_reader, []))

/-- A whole call on the queue or on one of its readers (readers are numbered in
creation order). -/
inductive Op (T : Type) where
  | enqueue (item : T)
  | try_read_at (position : Nat)
  | create_reader
  | create_reader_at (position : Nat)
  | try_read (reader : Nat)
  | read (reader : Nat)
  | advance (reader : Nat) (count : Nat)
  | reset (reader : Nat) (position : Nat)

/-- A queue together with the readers created from it. -/
structure World (T : Type) where
  queue : LockFreeSPMCQueue T
  readers : List Reader

/-- Execution of one whole call; a call on a reader that does not exist does
nothing. -/
def World.step {T : Type} [Element T] (cfg : Config) (w : World T) : Op T → World T
  | Op.enqueue item => { w with queue := (enqueue cfg w.queue item).2 }
  | Op.try_read_at position => { w with queue := (try_read_at cfg w.queue position).2 }
  | Op.create_reader => { w with readers := w.readers ++ [create_reader] }
  | Op.create_reader_at position => { w with readers := w.readers ++ [create_reader_at position] }
  | Op.try_read i =>
    match w.readers[i]? with
    | none => w
    | some r => { w with queue := (Reader.try_read cfg r w.queue).2 }
  | Op.read i =>
    match w.readers[i]? with
    | none => w
    | some r => { queue := (Reader.read cfg r w.queue).2.2,
                  readers := w.readers.set i (Reader.read cfg r w.queue).2.1 }
  | Op.advance i count =>
    match w.readers[i]? with
    | none => w
    | some r => { w with readers := w.readers.set i (Reader.advance r count) }
  | Op.reset i position =>
    match w.readers[i]? with
    | none => w
    | some r => { w with readers := w.readers.set i (Reader.reset r position) }

/-- Execution of a sequence of whole calls. -/
def World.run {T : Type} [Element T] (cfg : Config) (w : World T) (ops : List (Op T)) :
    World T :=
  ops.foldl (World.step cfg) w

/-- Number of `enqueue` calls in a sequence of calls. -/
def enqueue_count {T : Type} : List (Op T) → Nat
  | [] => 0
  | Op.enqueue _ :: ops => enqueue_count ops + 1
  | _ :: ops => enqueue_count ops

/-- A world together with the bookkeeping of its history: for every subscript of
the buffer, the element most recently constructed in that node by an `enqueue`,
if any.  The bookkeeping is not part of the program state. -/
structure Traced (T : Type) where
  world : World T
  written : Nat → Option T

/-- One whole call on a traced world: an `enqueue(item)` records `item` at the
node of the write position it claims, no other call constructs an element. -/
def Traced.step {T : Type} [Element T] (cfg : Config) (t : Traced T) (op : Op T) :
    Traced T :=
  { world := World.step cfg t.world op,
    written := match op with
      | Op.enqueue item =>
        Function.update t.written (get_node_index cfg t.world.queue.write_counter_) (some item)
      | _ => t.written }

/-- Execution of a sequence of whole calls on a traced world. -/
def Traced.run {T : Type} [Element T] (cfg : Config) (t : Traced T) (ops : List (Op T)) :
    Traced T :=
  ops.foldl (Traced.step cfg) t

/-- A fresh queue with its readers: nothing has been written. -/
def Traced.fresh {T : Type} [Element T] (cfg : Config) (readers : List Reader) : Traced T :=
  { world := { queue := ctor cfg, readers := readers }, written := fun _ => none }

/-- The slot parity invariant: the buffer has its `BUFFER_SIZE` nodes, a node's
version is odd exactly when an `enqueue` has constructed an element in it (and
the node then stores the most recent such element, moved from once by every read
since), and is 0 exactly when no `enqueue` has. -/
def SlotParity {T : Type} [Element T] (cfg : Config) (t : Traced T) : Prop :=
  t.world.queue.buffer_.length = BUFFER_SIZE cfg ∧
  ∀ i : Nat,
    ((t.world.queue.buffer_.getD i default).version_ % 2 = 1 ↔ ∃ x, t.written i = some x) ∧
    ((t.world.queue.buffer_.getD i default).version_ = 0 ↔ t.written i = none) ∧
    (∀ x, t.written i = some x →
      ∃ n : Nat, (t.world.queue.buffer_.getD i default).storage_
        = Nat.iterate Element.moved_from n x)

/-- A call of the element type's constructor or destructor on the storage of the
node with the given subscript. -/
inductive Lifetime (T : Type) where
  | construct (index : Nat) (x : T)
  | destroy (index : Nat) (x : T)
deriving DecidableEq

/-- Whether a lifetime event is a constructor call. -/
def Lifetime.isConstruct {T : Type} : Lifetime T → Bool
  | Lifetime.construct _ _ => true
  | Lifetime.destroy _ _ => false

/-- Whether a lifetime event is a destructor call. -/
def Lifetime.isDestroy {T : Type} : Lifetime T → Bool
  | Lifetime.construct _ _ => false
  | Lifetime.destroy _ _ => true

/-- The constructor and destructor calls that one `enqueue(item)` makes on the
storage of its node: the placement `new (node.storage_) T(...)` and nothing else
(the body of `enqueue` holds no destructor call, on either branch of its parity
test). -/
def enqueue_lifetime {T : Type} (cfg : Config) (q : LockFreeSPMCQueue T) (item : T) :
    List (Lifetime T) :=
  [Lifetime.construct (get_node_index cfg q.write_counter_) item]

/-- The constructor and destructor calls of `~LockFreeSPMCQueue()`: the `~T()`
calls of the nodes with an odd version. -/
def dtor_lifetime {T : Type} (q : LockFreeSPMCQueue T) : List (Lifetime T) :=
  (dtor q).map (fun p => Lifetime.destroy p.1 p.2)

/-- The constructor and destructor calls of a queue that receives the values of
`vs` by `enqueue`, in order, and is then destroyed. -/
def lifetime_trace {T : Type} [Element T] (cfg : Config) (q : LockFreeSPMCQueue T) :
    List T → List (Lifetime T)
  | [] => dtor_lifetime q
  | v :: vs => enqueue_lifetime cfg q v ++ lifetime_trace cfg (enqueue cfg q v).2 vs

/-- The index mapping in the words of the specification: the logical position
modulo `CAPACITY` gives the slot, placed behind the leading padding. -/
def spec_physical_index (cfg : Config) (idx : Nat) : Nat :=
  PADDING cfg + idx % CAPACITY cfg

/-! ## Index mapping and the effect of the operations on the slots -/

theorem WORD_pos : 0 < WORD := by unfold WORD; positivity

/-- A positive number sharing no bit with its predecessor is a power of two. -/
theorem pow_two_of_land_pred (c : Nat) (hc : 1 ≤ c) (h : c &&& (c - 1) = 0) :
    ∃ n, c = 2 ^ n := by
  refine ⟨Nat.log2 c, ?_⟩
  have hne : c ≠ 0 := by omega
  have hlo : 2 ^ Nat.log2 c ≤ c := Nat.log2_self_le hne
  have hhi : c < 2 ^ (Nat.log2 c + 1) := Nat.lt_log2_self
  by_contra hcon
  have hlt : 2 ^ Nat.log2 c ≤ c - 1 := by omega
  have hpos : 0 < 2 ^ Nat.log2 c := Nat.two_pow_pos _
  have hpow : 2 ^ (Nat.log2 c + 1) = 2 * 2 ^ Nat.log2 c := by rw [pow_succ]; ring
  have b1 : c.testBit (Nat.log2 c) = true := by
    rw [Nat.testBit_to_div_mod]
    have : c / 2 ^ Nat.log2 c = 1 := by
      apply Nat.div_eq_of_lt_le <;> omega
    simp [this]
  have b2 : (c - 1).testBit (Nat.log2 c) = true := by
    rw [Nat.testBit_to_div_mod]
    have : (c - 1) / 2 ^ Nat.log2 c = 1 := by
      apply Nat.div_eq_of_lt_le <;> omega
    simp [this]
  have b3 : (c &&& (c - 1)).testBit (Nat.log2 c) = true := by
    rw [Nat.testBit_and, b1, b2]; rfl
  rw [h] at b3
  simp at b3

theorem wrapping_pred (c : Nat) (h1 : 1 ≤ c) (h2 : c < WORD) : (c + WORD - 1) % WORD = c - 1 := by
  have : c + WORD - 1 = (c - 1) + WORD := by omega
  rw [this, Nat.add_mod_right, Nat.mod_eq_of_lt]; omega

theorem valid_size_lt (cfg : Config) (hv : cfg.valid) : cfg.SIZE < WORD := by
  have := hv.2
  omega

/-- For valid constants `BUFFER_SIZE` is the sum itself. -/
theorem BUFFER_SIZE_eq (cfg : Config) (hv : cfg.valid) :
    BUFFER_SIZE cfg = cfg.SIZE + 2 * PADDING cfg := by
  unfold BUFFER_SIZE CAPACITY
  exact Nat.mod_eq_of_lt hv.2

/-- What `get_node` computes: the slot `idx mod SIZE` behind the leading padding,
on either branch of the `if constexpr`. -/
theorem get_node_index_eq (cfg : Config) (hv : cfg.valid) (idx : Nat) :
    get_node_index cfg idx = PADDING cfg + idx % cfg.SIZE := by
  have h1 : 1 ≤ cfg.SIZE := hv.1
  have h2 : cfg.SIZE < WORD := valid_size_lt cfg hv
  have hb := hv.2
  have hm := Nat.mod_lt idx (show cfg.SIZE > 0 from h1)
  have hw : (PADDING cfg + idx % cfg.SIZE) % WORD = PADDING cfg + idx % cfg.SIZE :=
    Nat.mod_eq_of_lt (by omega)
  unfold get_node_index
  split
  · rename_i hp
    have hp2 := hp
    unfold IS_POWER_OF_TWO at hp2
    simp only [CAPACITY, wrapping_pred _ h1 h2, beq_iff_eq] at hp2
    obtain ⟨n, hn⟩ := pow_two_of_land_pred _ h1 hp2
    simp only [INDEX_MASK, hp, if_true, CAPACITY, wrapping_pred _ h1 h2]
    rw [← hw, hn, Nat.and_pow_two_sub_one_eq_mod]
  · exact hw

theorem get_node_index_lt (cfg : Config) (hv : cfg.valid) (idx : Nat) :
    get_node_index cfg idx < BUFFER_SIZE cfg := by
  rw [get_node_index_eq cfg hv]
  have := Nat.mod_lt idx (show cfg.SIZE > 0 from hv.1)
  rw [BUFFER_SIZE_eq cfg hv]; omega


theorem getD_set_self {α : Type} (l : List α) (i : Nat) (a d : α) (h : i < l.length) :
    (l.set i a).getD i d = a := by
  simp [List.getD_eq_getElem?_getD, List.getElem?_set, h]

theorem getD_set_ne {α : Type} (l : List α) (i j : Nat) (a d : α) (h : i ≠ j) :
    (l.set i a).getD j d = l.getD j d := by
  simp [List.getD_eq_getElem?_getD, List.getElem?_set, h]

/-- The version `enqueue` publishes over a slot whose version was `v`. -/
theorem enqueue_buffer {T : Type} [Element T] (cfg : Config) (q : LockFreeSPMCQueue T)
    (item : T) :
    (enqueue cfg q item).2.buffer_ =
      q.buffer_.set (get_node_index cfg q.write_counter_)
        ⟨if (get_node cfg q q.write_counter_).version_ % 2 = 1
          then ((get_node cfg q q.write_counter_).version_ + 2) % WORD
          else ((get_node cfg q q.write_counter_).version_ + 1) % WORD, item⟩ := by
  unfold enqueue get_node
  by_cases h : (q.buffer_.getD (get_node_index cfg q.write_counter_) default).version_ % 2 = 1
  · simp [h, Nat.add_assoc]
  · simp [h]

theorem enqueue_write_counter {T : Type} [Element T] (cfg : Config)
    (q : LockFreeSPMCQueue T) (item : T) :
    (enqueue cfg q item).2.write_counter_ = (q.write_counter_ + 1) % WORD := rfl

theorem try_read_at_even {T : Type} [Element T] (cfg : Config) (q : LockFreeSPMCQueue T)
    (p : Nat) (h : (get_node cfg q p).version_ % 2 = 0) :
    try_read_at cfg q p = (none, q) := by
  unfold get_node at h
  unfold try_read_at
  simp only [h]
  rfl

theorem try_read_at_odd {T : Type} [Element T] (cfg : Config) (q : LockFreeSPMCQueue T)
    (p : Nat) (h : (get_node cfg q p).version_ % 2 = 1) :
    try_read_at cfg q p =
      (some (get_node cfg q p).storage_,
        { q with
          buffer_ := q.buffer_.set (get_node_index cfg p)
            ⟨((get_node cfg q p).version_ + 2) % WORD,
              Element.moved_from (get_node cfg q p).storage_⟩ }) := by
  unfold get_node at h
  unfold try_read_at get_node compare_exchange_strong
  simp only [h]
  simp

theorem get_node_eq_slot {T : Type} [Element T] (cfg : Config) (hv : cfg.valid)
    (q : LockFreeSPMCQueue T) (p : Nat) :
    get_node cfg q p = slot cfg q (p % cfg.SIZE) := by
  unfold get_node slot
  rw [get_node_index_eq cfg hv]

theorem odd_add_two_mod (v : Nat) (h : v % 2 = 1) : (v + 2) % WORD % 2 = 1 := by
  unfold WORD; omega


theorem slot_ctor {T : Type} [Element T] (cfg : Config) (s : Nat) :
    slot cfg (ctor cfg : LockFreeSPMCQueue T) s = default := by
  unfold slot ctor
  simp only [List.getD_eq_getElem?_getD]
  by_cases h : PADDING cfg + s < BUFFER_SIZE cfg
  · simp [List.getElem?_replicate, h]
  · simp [List.getElem?_replicate, h]

theorem enqueue_length {T : Type} [Element T] (cfg : Config) (q : LockFreeSPMCQueue T)
    (item : T) : (enqueue cfg q item).2.buffer_.length = q.buffer_.length := by
  rw [enqueue_buffer, List.length_set]

theorem try_read_at_length {T : Type} [Element T] (cfg : Config) (q : LockFreeSPMCQueue T)
    (p : Nat) : (try_read_at cfg q p).2.buffer_.length = q.buffer_.length := by
  rcases Nat.mod_two_eq_zero_or_one (get_node cfg q p).version_ with h | h
  · rw [try_read_at_even cfg q p h]
  · rw [try_read_at_odd cfg q p h]; simp

theorem try_read_at_write_counter {T : Type} [Element T] (cfg : Config)
    (q : LockFreeSPMCQueue T) (p : Nat) :
    (try_read_at cfg q p).2.write_counter_ = q.write_counter_ := by
  rcases Nat.mod_two_eq_zero_or_one (get_node cfg q p).version_ with h | h
  · rw [try_read_at_even cfg q p h]
  · rw [try_read_at_odd cfg q p h]

/-- Effect of `enqueue` on the logical slots: the slot of the old write position
gets the item and the next odd version, every other slot is untouched. -/
theorem slot_enqueue {T : Type} [Element T] (cfg : Config) (hv : cfg.valid)
    (q : LockFreeSPMCQueue T) (hl : q.buffer_.length = BUFFER_SIZE cfg) (item : T)
    (s : Nat) (hs : s < cfg.SIZE) :
    slot cfg (enqueue cfg q item).2 s =
      if s = q.write_counter_ % cfg.SIZE then
        ⟨if (slot cfg q s).version_ % 2 = 1 then ((slot cfg q s).version_ + 2) % WORD
          else ((slot cfg q s).version_ + 1) % WORD, item⟩
      else slot cfg q s := by
  have hm := Nat.mod_lt q.write_counter_ (show cfg.SIZE > 0 from hv.1)
  unfold slot
  rw [enqueue_buffer, get_node_eq_slot cfg hv, get_node_index_eq cfg hv]
  by_cases h : s = q.write_counter_ % cfg.SIZE
  · subst h
    rw [getD_set_self, if_pos rfl]
    · rfl
    · rw [hl]; rw [BUFFER_SIZE_eq cfg hv]; omega
  · rw [getD_set_ne, if_neg h]
    omega

/-- Effect of `try_read_at` on the logical slots: only the version of the slot
read moves, by 2, and only when it is odd. -/
theorem slot_try_read_at {T : Type} [Element T] (cfg : Config) (hv : cfg.valid)
    (q : LockFreeSPMCQueue T) (hl : q.buffer_.length = BUFFER_SIZE cfg) (p : Nat)
    (s : Nat) (hs : s < cfg.SIZE) :
    slot cfg (try_read_at cfg q p).2 s =
      if s = p % cfg.SIZE ∧ (slot cfg q s).version_ % 2 = 1 then
        ⟨((slot cfg q s).version_ + 2) % WORD, Element.moved_from (slot cfg q s).storage_⟩
      else slot cfg q s := by
  have hm := Nat.mod_lt p (show cfg.SIZE > 0 from hv.1)
  rcases Nat.mod_two_eq_zero_or_one (get_node cfg q p).version_ with h | h
  · rw [try_read_at_even cfg q p h]
    rw [get_node_eq_slot cfg hv] at h
    rw [if_neg]
    rintro ⟨h1, h2⟩
    subst h1
    omega
  · rw [try_read_at_odd cfg q p h]
    rw [get_node_eq_slot cfg hv] at h
    unfold slot
    simp only
    rw [get_node_eq_slot cfg hv, get_node_index_eq cfg hv]
    by_cases h1 : s = p % cfg.SIZE
    · subst h1
      rw [getD_set_self, if_pos ⟨rfl, h⟩]
      · rfl
      · rw [hl]; rw [BUFFER_SIZE_eq cfg hv]; omega
    · rw [getD_set_ne, if_neg]
      · exact fun hh => h1 hh.1
      · omega

theorem try_read_at_fst {T : Type} [Element T] (cfg : Config) (hv : cfg.valid)
    (q : LockFreeSPMCQueue T) (p : Nat) :
    (try_read_at cfg q p).1 =
      if (slot cfg q (p % cfg.SIZE)).version_ % 2 = 1
        then some (slot cfg q (p % cfg.SIZE)).storage_ else none := by
  rcases Nat.mod_two_eq_zero_or_one (get_node cfg q p).version_ with h | h
  · rw [try_read_at_even cfg q p h]
    rw [get_node_eq_slot cfg hv] at h
    rw [if_neg]; omega
  · rw [try_read_at_odd cfg q p h]
    rw [get_node_eq_slot cfg hv] at h
    rw [if_pos h, get_node_eq_slot cfg hv]

theorem published_ctor {T : Type} [Element T] (cfg : Config) :
    Published cfg ([] : List T) (ctor cfg) := by
  refine ⟨by simp [ctor], ?_⟩
  intro s _
  rw [slot_ctor]
  refine ⟨fun _ => rfl, fun h => absurd h (by simp), fun k hk => absurd hk (by simp)⟩

theorem published_enqueue {T : Type} [Element T] (cfg : Config) (hv : cfg.valid)
    (vs : List T) (q : LockFreeSPMCQueue T) (hp : Published cfg vs q)
    (hw : q.write_counter_ = vs.length) (v : T) :
    Published cfg (vs ++ [v]) (enqueue cfg q v).2 := by
  obtain ⟨hl, hs⟩ := hp
  refine ⟨by rw [enqueue_length, hl], ?_⟩
  intro s hsC
  obtain ⟨h0, h1, h2⟩ := hs s hsC
  rw [slot_enqueue cfg hv q hl v s hsC, hw]
  simp only [List.length_append, List.length_singleton]
  by_cases hsw : s = vs.length % cfg.SIZE
  · rw [if_pos hsw]
    refine ⟨?_, ?_, ?_⟩
    · intro hle
      have := Nat.mod_le vs.length cfg.SIZE
      omega
    · intro _
      simp only
      split
      · rename_i ho; exact odd_add_two_mod _ ho
      · rename_i ho
        by_cases hlt : s < vs.length
        · exact absurd (h1 hlt) ho
        · rw [h0 (by omega)]; decide
    · intro k hk hks hmax
      have hkn : k = vs.length := by
        have := hmax vs.length (by omega) hsw.symm
        omega
      subst hkn
      simp
  · rw [if_neg hsw]
    refine ⟨fun hle => h0 (by omega), ?_, ?_⟩
    · intro hlt
      apply h1
      by_contra hcon
      have : s = vs.length := by omega
      apply hsw
      rw [← this, Nat.mod_eq_of_lt hsC]
    · intro k hk hks hmax
      have hkn : k < vs.length := by
        by_contra hcon
        have : k = vs.length := by omega
        apply hsw; rw [← this, hks]
      rw [List.getElem?_append_left hkn]
      exact h2 k hkn hks (fun j hj hjs => hmax j (by omega) hjs)

/-- When a move leaves its source unchanged, reads keep the published state. -/
theorem published_try_read_at {T : Type} [Element T] (cfg : Config) (hv : cfg.valid)
    (hcopy : MoveIsCopy T)
    (vs : List T) (q : LockFreeSPMCQueue T) (hp : Published cfg vs q) (p : Nat) :
    Published cfg vs (try_read_at cfg q p).2 := by
  obtain ⟨hl, hs⟩ := hp
  refine ⟨by rw [try_read_at_length, hl], ?_⟩
  intro s hsC
  obtain ⟨h0, h1, h2⟩ := hs s hsC
  rw [slot_try_read_at cfg hv q hl p s hsC]
  split
  · rename_i hc
    simp only [hcopy (slot cfg q s).storage_]
    refine ⟨fun hle => ?_, fun _ => odd_add_two_mod _ hc.2, h2⟩
    have := h0 hle
    omega
  · exact ⟨h0, h1, h2⟩

theorem published_from_of_published {T : Type} [Element T] (cfg : Config) (vs : List T)
    (q : LockFreeSPMCQueue T) (hp : Published cfg vs q) (j : Nat) :
    PublishedFrom cfg vs j q := by
  obtain ⟨hl, hs⟩ := hp
  exact ⟨hl, fun s hsC => ⟨(hs s hsC).1, (hs s hsC).2.1, fun _ => (hs s hsC).2.2⟩⟩

/-- A read at a slot up to `j` keeps the slots behind `j` as they were. -/
theorem published_from_try_read_at {T : Type} [Element T] (cfg : Config) (hv : cfg.valid)
    (vs : List T) (j : Nat) (q : LockFreeSPMCQueue T) (hp : PublishedFrom cfg vs j q)
    (p : Nat) (hpj : p % cfg.SIZE ≤ j) :
    PublishedFrom cfg vs (j + 1) (try_read_at cfg q p).2 := by
  obtain ⟨hl, hs⟩ := hp
  refine ⟨by rw [try_read_at_length, hl], ?_⟩
  intro s hsC
  obtain ⟨h0, h1, h2⟩ := hs s hsC
  rw [slot_try_read_at cfg hv q hl p s hsC]
  split
  · rename_i hc
    refine ⟨fun hle => ?_, fun _ => odd_add_two_mod _ hc.2, fun hjs => ?_⟩
    · have := h0 hle
      omega
    · have := hc.1
      omega
  · exact ⟨h0, h1, fun hjs => h2 (by omega)⟩

theorem enqueue_all_append {T : Type} [Element T] (cfg : Config) (q : LockFreeSPMCQueue T)
    (vs : List T) (v : T) :
    enqueue_all cfg q (vs ++ [v]) = (enqueue cfg (enqueue_all cfg q vs) v).2 := by
  simp [enqueue_all, List.foldl_append]

/-- State after a run of enqueues on a fresh queue, as long as the write counter
has not wrapped before the last of them. -/
theorem published_enqueue_all {T : Type} [Element T] (cfg : Config) (hv : cfg.valid)
    (vs : List T) (hn : vs.length ≤ WORD) :
    Published cfg vs (enqueue_all cfg (ctor cfg) vs) ∧
      (enqueue_all cfg (ctor cfg) vs).write_counter_ = vs.length % WORD := by
  induction vs using List.reverseRecOn with
  | nil => exact ⟨published_ctor cfg, rfl⟩
  | append_singleton vs v ih =>
    simp only [List.length_append, List.length_singleton] at hn
    obtain ⟨ih1, ih2⟩ := ih (by omega)
    rw [Nat.mod_eq_of_lt (by omega)] at ih2
    rw [enqueue_all_append]
    refine ⟨published_enqueue cfg hv vs _ ih1 ih2 v, ?_⟩
    rw [enqueue_write_counter, ih2]
    simp


/-- With no overwrite, a `read()` at a position below the number of enqueued
values returns the value of that position and moves the cursor by one. -/
theorem read_published_lt {T : Type} [Element T] (cfg : Config) (hv : cfg.valid)
    (vs : List T) (q : LockFreeSPMCQueue T) (j : Nat) (hp : PublishedFrom cfg vs j q)
    (hN : vs.length ≤ cfg.SIZE) (hj : j < vs.length) :
    Reader.read cfg ⟨j⟩ q = (vs[j]?, ⟨j + 1⟩, (try_read_at cfg q j).2) := by
  obtain ⟨_, hs⟩ := hp
  have hjC : j < cfg.SIZE := by omega
  obtain ⟨_, h1, h2⟩ := hs j hjC
  have hmod : j % cfg.SIZE = j := Nat.mod_eq_of_lt hjC
  have hval := h2 (Nat.le_refl j) j hj hmod (fun i hi him => by
    rw [Nat.mod_eq_of_lt (by omega)] at him; omega)
  have hfst := try_read_at_fst cfg hv q j
  rw [hmod, if_pos (h1 hj), ← hval] at hfst
  have hW : (j + 1) % WORD = j + 1 := Nat.mod_eq_of_lt (by have := hv.2; omega)
  unfold Reader.read Reader.try_read
  simp only [hfst, hW]
  simp [List.getElem?_eq_getElem hj]

/-- A `read()` at a position whose slot was never written returns absent and
changes nothing. -/
theorem read_published_ge {T : Type} [Element T] (cfg : Config) (hv : cfg.valid)
    (vs : List T) (q : LockFreeSPMCQueue T) (i : Nat) (hp : PublishedFrom cfg vs i q)
    (j : Nat) (hj : vs.length ≤ j) (hjC : j < cfg.SIZE) :
    Reader.read cfg ⟨j⟩ q = (none, ⟨j⟩, q) := by
  obtain ⟨_, hs⟩ := hp
  obtain ⟨h0, _, _⟩ := hs j hjC
  have hmod : j % cfg.SIZE = j := Nat.mod_eq_of_lt hjC
  have hev : (get_node cfg q j).version_ % 2 = 0 := by
    rw [get_node_eq_slot cfg hv, hmod, h0 hj]
  unfold Reader.read Reader.try_read
  simp [try_read_at_even cfg q j hev]

theorem read_n_published {T : Type} [Element T] (cfg : Config) (hv : cfg.valid)
    (vs : List T) (hN : vs.length ≤ cfg.SIZE) (n : Nat) :
    ∀ (j : Nat) (q : LockFreeSPMCQueue T), PublishedFrom cfg vs j q → j + n = vs.length →
      (read_n cfg n ⟨j⟩ q).1 = (vs.drop j).map some ∧
      (read_n cfg n ⟨j⟩ q).2.1 = ⟨vs.length⟩ ∧
      PublishedFrom cfg vs vs.length (read_n cfg n ⟨j⟩ q).2.2 ∧
      (read_n cfg n ⟨j⟩ q).2.2.write_counter_ = q.write_counter_ := by
  induction n with
  | zero =>
    intro j q hp hj
    simp only [Nat.add_zero] at hj
    subst hj
    simp [read_n, hp]
  | succ n ih =>
    intro j q hp hj
    have hjl : j < vs.length := by omega
    have hstep := read_published_lt cfg hv vs q j hp hN hjl
    obtain ⟨i1, i2, i3, i4⟩ :=
      ih (j + 1) (try_read_at cfg q j).2
        (published_from_try_read_at cfg hv vs j q hp j (Nat.mod_le _ _)) (by omega)
    simp only [read_n, hstep]
    refine ⟨?_, i2, i3, ?_⟩
    · rw [i1, List.getElem?_eq_getElem hjl, List.drop_eq_getElem_cons hjl, List.map_cons]
    · rw [i4, try_read_at_write_counter]

theorem read_n_absent {T : Type} [Element T] (cfg : Config) (hv : cfg.valid)
    (vs : List T) (q : LockFreeSPMCQueue T) (i : Nat) (hp : PublishedFrom cfg vs i q)
    (j : Nat) (hj : vs.length ≤ j) (hjC : j < cfg.SIZE) (m : Nat) :
    read_n cfg m ⟨j⟩ q = (List.replicate m none, ⟨j⟩, q) := by
  induction m with
  | zero => rfl
  | succ m ih =>
    simp only [read_n, read_published_ge cfg hv vs q i hp j hj hjC, ih]
    rfl

/-- C1: for every capacity C with 1 ≤ C (whose buffer size fits `size_t`), every N ≤ C and every
values v_0..v_{N-1}: after the N enqueues on a fresh queue, a reader from
`create_reader()` that calls `read()` N times gets exactly the present values
v_0, ..., v_{N-1} in that order, and its `position()` is N afterwards. -/
theorem C1_read_returns_enqueued_in_order {T : Type} [Element T] (cfg : Config)
    (hv : cfg.valid) (vs : List T) (hN : vs.length ≤ cfg.SIZE) :
    (read_n cfg vs.length create_reader (enqueue_all cfg (ctor cfg) vs)).1 = vs.map some ∧
    (read_n cfg vs.length create_reader (enqueue_all cfg (ctor cfg) vs)).2.1.position
      = vs.length := by
  have hW : vs.length ≤ WORD := by have := hv.2; omega
  obtain ⟨hp, _⟩ := published_enqueue_all cfg hv vs hW
  obtain ⟨h1, h2, _, _⟩ :=
    read_n_published cfg hv vs hN vs.length 0 _
      (published_from_of_published cfg vs _ hp 0) (by omega)
  refine ⟨?_, ?_⟩
  · simpa [create_reader] using h1
  · unfold create_reader
    rw [h2]
    rfl

theorem C1_read_returns_enqueued_in_order_witness :
    (⟨3, 64, 64⟩ : Config).valid ∧ [10, 20, 30].length ≤ (⟨3, 64, 64⟩ : Config).SIZE ∧
    (read_n ⟨3, 64, 64⟩ 3 create_reader (enqueue_all ⟨3, 64, 64⟩ (ctor ⟨3, 64, 64⟩) [10, 20, 30])).1
      = [some 10, some 20, some 30] ∧
    (read_n ⟨3, 64, 64⟩ 3 create_reader
      (enqueue_all ⟨3, 64, 64⟩ (ctor ⟨3, 64, 64⟩) [10, 20, 30])).2.1.position = 3 :=
  ⟨by decide, by decide,
    C1_read_returns_enqueued_in_order ⟨3, 64, 64⟩ (by decide) [10, 20, 30] (by decide)⟩

/-- C2, as stated, fails when N = C: with capacity 1 and one value enqueued and
read, the second `read()` wraps to the slot just read, whose version is odd, so
it returns the present value 10 again and moves the position to 2. -/
theorem C2_counterexample_full_buffer :
    (read_n ⟨1, 64, 64⟩ 1 create_reader (enqueue_all ⟨1, 64, 64⟩ (ctor ⟨1, 64, 64⟩) [10])).1
      = [some 10] ∧
    (Reader.read ⟨1, 64, 64⟩
      (read_n ⟨1, 64, 64⟩ 1 create_reader (enqueue_all ⟨1, 64, 64⟩ (ctor ⟨1, 64, 64⟩) [10])).2.1
      (read_n ⟨1, 64, 64⟩ 1 create_reader (enqueue_all ⟨1, 64, 64⟩ (ctor ⟨1, 64, 64⟩) [10])).2.2).1
      = some 10 ∧
    (Reader.read ⟨1, 64, 64⟩
      (read_n ⟨1, 64, 64⟩ 1 create_reader (enqueue_all ⟨1, 64, 64⟩ (ctor ⟨1, 64, 64⟩) [10])).2.1
      (read_n ⟨1, 64, 64⟩ 1 create_reader (enqueue_all ⟨1, 64, 64⟩ (ctor ⟨1, 64, 64⟩) [10])).2.2).2.1.position
      = 2 := by
  decide

/-- C2 (amended): for every capacity C with 1 ≤ C and every N strictly below C:
after N values were enqueued into a fresh queue and a reader that started at
position 0 has read them with N calls of `read()`, the next `read()` returns
absent and leaves the reader and the queue as they were (position N), and so
does every further `read()` as long as nothing is enqueued. -/
theorem C2_read_past_end_absent {T : Type} [Element T] (cfg : Config)
    (hv : cfg.valid) (vs : List T) (hN : vs.length < cfg.SIZE) :
    (read_n cfg vs.length create_reader (enqueue_all cfg (ctor cfg) vs)).1 = vs.map some ∧
    (read_n cfg vs.length create_reader (enqueue_all cfg (ctor cfg) vs)).2.1.position
      = vs.length ∧
    Reader.read cfg
      (read_n cfg vs.length create_reader (enqueue_all cfg (ctor cfg) vs)).2.1
      (read_n cfg vs.length create_reader (enqueue_all cfg (ctor cfg) vs)).2.2
      = (none,
        (read_n cfg vs.length create_reader (enqueue_all cfg (ctor cfg) vs)).2.1,
        (read_n cfg vs.length create_reader (enqueue_all cfg (ctor cfg) vs)).2.2) ∧
    ∀ m : Nat,
      read_n cfg m
        (read_n cfg vs.length create_reader (enqueue_all cfg (ctor cfg) vs)).2.1
        (read_n cfg vs.length create_reader (enqueue_all cfg (ctor cfg) vs)).2.2
      = (List.replicate m none,
        (read_n cfg vs.length create_reader (enqueue_all cfg (ctor cfg) vs)).2.1,
        (read_n cfg vs.length create_reader (enqueue_all cfg (ctor cfg) vs)).2.2) := by
  have hW : vs.length ≤ WORD := by have := hv.2; omega
  obtain ⟨hp, _⟩ := published_enqueue_all cfg hv vs hW
  obtain ⟨h1, h2, h3, _⟩ :=
    read_n_published cfg hv vs (Nat.le_of_lt hN) vs.length 0 _
      (published_from_of_published cfg vs _ hp 0) (by omega)
  have h1' : (read_n cfg vs.length create_reader (enqueue_all cfg (ctor cfg) vs)).1
      = vs.map some := by simpa [create_reader] using h1
  have h2' : (read_n cfg vs.length create_reader (enqueue_all cfg (ctor cfg) vs)).2.1
      = ⟨vs.length⟩ := h2
  have h3' : PublishedFrom cfg vs vs.length
      (read_n cfg vs.length create_reader (enqueue_all cfg (ctor cfg) vs)).2.2 := h3
  refine ⟨h1', ?_, ?_, ?_⟩
  · rw [h2']; rfl
  · rw [h2']
    exact read_published_ge cfg hv vs _ _ h3' vs.length (Nat.le_refl _) hN
  · intro m
    rw [h2']
    exact read_n_absent cfg hv vs _ _ h3' vs.length (Nat.le_refl _) hN m

theorem C2_read_past_end_absent_witness :
    (⟨3, 64, 64⟩ : Config).valid ∧ [10, 20].length < (⟨3, 64, 64⟩ : Config).SIZE ∧
    (Reader.read ⟨3, 64, 64⟩
      (read_n ⟨3, 64, 64⟩ 2 create_reader (enqueue_all ⟨3, 64, 64⟩ (ctor ⟨3, 64, 64⟩) [10, 20])).2.1
      (read_n ⟨3, 64, 64⟩ 2 create_reader (enqueue_all ⟨3, 64, 64⟩ (ctor ⟨3, 64, 64⟩) [10, 20])).2.2).1
      = none ∧
    (read_n ⟨3, 64, 64⟩ 2 create_reader
      (enqueue_all ⟨3, 64, 64⟩ (ctor ⟨3, 64, 64⟩) [10, 20])).2.1.position = 2 :=
  ⟨by decide, by decide,
    congrArg Prod.fst
      (C2_read_past_end_absent ⟨3, 64, 64⟩ (by decide) [10, 20] (by decide)).2.2.1,
    (C2_read_past_end_absent ⟨3, 64, 64⟩ (by decide) [10, 20] (by decide)).2.1⟩

theorem congruent_below_le_sub (c n j : Nat) (hj : j < n) (hm : j % c = n % c) :
    j + c ≤ n := by
  have h0 : (n - j) % c = 0 := Nat.sub_mod_eq_zero_of_mod_eq hm.symm
  have hd : c ∣ n - j := Nat.dvd_of_mod_eq_zero h0
  have := Nat.le_of_dvd (by omega) hd
  omega

/-- C3: `enqueue` returns true in every queue state and for every item; in
particular, once at least CAPACITY values were enqueued with no read (so the
target slot has an odd version and still holds the unread value enqueued
CAPACITY calls earlier) it still returns true; and the retry loop of the
benchmark producer ends after its first `enqueue` call without running its body. -/
theorem C3_enqueue_always_true {T : Type} [Element T] (cfg : Config) :
    (∀ (q : LockFreeSPMCQueue T) (item : T), (enqueue cfg q item).1 = true) ∧
    (cfg.valid → ∀ (vs : List T) (item : T), cfg.SIZE ≤ vs.length → vs.length < WORD →
      (get_node cfg (enqueue_all cfg (ctor cfg) vs)
        (enqueue_all cfg (ctor cfg) vs).write_counter_).version_ % 2 = 1 ∧
      vs[vs.length - cfg.SIZE]? = some (get_node cfg (enqueue_all cfg (ctor cfg) vs)
        (enqueue_all cfg (ctor cfg) vs).write_counter_).storage_ ∧
      (enqueue cfg (enqueue_all cfg (ctor cfg) vs) item).1 = true) ∧
    (∀ (fuel : Nat) (q : LockFreeSPMCQueue T) (item : T),
      produce_retry cfg (fuel + 1) q item = some ((enqueue cfg q item).2, 0)) := by
  refine ⟨fun _ _ => rfl, ?_, fun _ _ _ => rfl⟩
  intro hv vs item hC hW
  obtain ⟨⟨_, hs⟩, hw⟩ := published_enqueue_all cfg hv vs (Nat.le_of_lt hW)
  rw [Nat.mod_eq_of_lt hW] at hw
  have hpos : 0 < cfg.SIZE := hv.1
  have hm := Nat.mod_lt vs.length hpos
  obtain ⟨_, h1, h2⟩ := hs (vs.length % cfg.SIZE) hm
  rw [hw, get_node_eq_slot cfg hv]
  refine ⟨h1 (by omega), ?_, rfl⟩
  apply h2 (vs.length - cfg.SIZE) (by omega)
  · conv_rhs => rw [show vs.length = (vs.length - cfg.SIZE) + cfg.SIZE by omega]
    rw [Nat.add_mod_right]
  · intro j hj hjm
    have := congruent_below_le_sub cfg.SIZE vs.length j hj hjm
    omega

theorem C3_enqueue_always_true_witness :
    (⟨2, 64, 64⟩ : Config).valid ∧ (⟨2, 64, 64⟩ : Config).SIZE ≤ [10, 20, 30].length ∧
    [10, 20, 30].length < WORD ∧
    (get_node ⟨2, 64, 64⟩ (enqueue_all ⟨2, 64, 64⟩ (ctor ⟨2, 64, 64⟩) [10, 20, 30])
        (enqueue_all ⟨2, 64, 64⟩ (ctor ⟨2, 64, 64⟩) [10, 20, 30]).write_counter_).version_ % 2 = 1 ∧
    (enqueue ⟨2, 64, 64⟩ (enqueue_all ⟨2, 64, 64⟩ (ctor ⟨2, 64, 64⟩) [10, 20, 30]) 40).1 = true :=
  ⟨by decide, by decide, by decide,
    ((C3_enqueue_always_true ⟨2, 64, 64⟩).2.1 (by decide) [10, 20, 30] 40
      (by decide) (by decide)).1,
    ((C3_enqueue_always_true ⟨2, 64, 64⟩).2.1 (by decide) [10, 20, 30] 40
      (by decide) (by decide)).2.2⟩

/-- C4: for every capacity C with 1 ≤ C, every N > C (N a count within the range
of the 64-bit write counter) and values v_0..v_{N-1} enqueued into a fresh queue
with no reads in between, and every position p: `try_read_at(p)` returns the
present value v_k, where k is the greatest index below N with k mod C = p mod C
(such a k exists for every p); for an overwritten position, p + C < N, that k is
greater than p, so the value is the newer one. -/
theorem C4_overwritten_position_yields_latest {T : Type} [Element T] (cfg : Config)
    (hv : cfg.valid) (vs : List T) (hN : cfg.SIZE < vs.length) (hW : vs.length ≤ WORD)
    (p : Nat) :
    ∃ k, ∃ hk : k < vs.length,
      k % cfg.SIZE = p % cfg.SIZE ∧
      (∀ j, j < vs.length → j % cfg.SIZE = p % cfg.SIZE → j ≤ k) ∧
      (try_read_at cfg (enqueue_all cfg (ctor cfg) vs) p).1 = some vs[k] ∧
      (p + cfg.SIZE < vs.length → p < k) := by
  obtain ⟨⟨_, hs⟩, _⟩ := published_enqueue_all cfg hv vs hW
  have hpos : 0 < cfg.SIZE := hv.1
  have hm := Nat.mod_lt p hpos
  obtain ⟨_, h1, h2⟩ := hs (p % cfg.SIZE) hm
  have hex : (p % cfg.SIZE) % cfg.SIZE = p % cfg.SIZE := Nat.mod_mod _ _
  let k := Nat.findGreatest (fun j => j % cfg.SIZE = p % cfg.SIZE) (vs.length - 1)
  have hkP : k % cfg.SIZE = p % cfg.SIZE :=
    Nat.findGreatest_spec (P := fun j => j % cfg.SIZE = p % cfg.SIZE)
      (show p % cfg.SIZE ≤ vs.length - 1 by omega) hex
  have hkle : k ≤ vs.length - 1 := Nat.findGreatest_le _
  have hk : k < vs.length := by omega
  have hmax : ∀ j, j < vs.length → j % cfg.SIZE = p % cfg.SIZE → j ≤ k := fun j hj hjm =>
    Nat.le_findGreatest (show j ≤ vs.length - 1 by omega) hjm
  refine ⟨k, hk, hkP, hmax, ?_, ?_⟩
  · rw [try_read_at_fst cfg hv, if_pos (h1 (by omega)), ← h2 k hk hkP hmax,
      List.getElem?_eq_getElem hk]
  · intro hlt
    have := hmax (p + cfg.SIZE) hlt (Nat.add_mod_right _ _)
    omega

theorem C4_overwritten_position_yields_latest_witness :
    (⟨2, 64, 64⟩ : Config).valid ∧ (⟨2, 64, 64⟩ : Config).SIZE < [10, 20, 30].length ∧
    [10, 20, 30].length ≤ WORD ∧
    ∃ k, ∃ hk : k < [10, 20, 30].length,
      k % (⟨2, 64, 64⟩ : Config).SIZE = 0 % (⟨2, 64, 64⟩ : Config).SIZE ∧
      (∀ j, j < [10, 20, 30].length →
        j % (⟨2, 64, 64⟩ : Config).SIZE = 0 % (⟨2, 64, 64⟩ : Config).SIZE → j ≤ k) ∧
      (try_read_at ⟨2, 64, 64⟩ (enqueue_all ⟨2, 64, 64⟩ (ctor ⟨2, 64, 64⟩) [10, 20, 30]) 0).1
        = some ([10, 20, 30][k]) ∧
      (0 + (⟨2, 64, 64⟩ : Config).SIZE < [10, 20, 30].length → 0 < k) :=
  ⟨by decide, by decide, by decide,
    C4_overwritten_position_yields_latest ⟨2, 64, 64⟩ (by decide) [10, 20, 30]
      (by decide) (by decide) 0⟩

/-- A read does not change the parity of any node's version. -/
theorem try_read_at_keeps_parity {T : Type} [Element T] (cfg : Config)
    (q : LockFreeSPMCQueue T) (p i : Nat) :
    ((try_read_at cfg q p).2.buffer_.getD i default).version_ % 2
      = (q.buffer_.getD i default).version_ % 2 := by
  rcases Nat.mod_two_eq_zero_or_one (get_node cfg q p).version_ with h | h
  · rw [try_read_at_even cfg q p h]
  · rw [try_read_at_odd cfg q p h]
    simp only
    by_cases hi : get_node_index cfg p = i
    · subst hi
      by_cases hlen : get_node_index cfg p < q.buffer_.length
      · rw [getD_set_self _ _ _ _ hlen]
        simp only
        rw [odd_add_two_mod _ h]
        exact h.symm
      · rw [List.set_eq_of_length_le (by omega)]
    · rw [getD_set_ne _ _ _ _ _ hi]

/-- When a move leaves its source unchanged, a read changes no stored element. -/
theorem try_read_at_keeps_storage {T : Type} [Element T] (cfg : Config)
    (hcopy : MoveIsCopy T) (q : LockFreeSPMCQueue T) (p i : Nat) :
    ((try_read_at cfg q p).2.buffer_.getD i default).storage_
      = (q.buffer_.getD i default).storage_ := by
  rcases Nat.mod_two_eq_zero_or_one (get_node cfg q p).version_ with h | h
  · rw [try_read_at_even cfg q p h]
  · rw [try_read_at_odd cfg q p h]
    simp only
    by_cases hi : get_node_index cfg p = i
    · subst hi
      by_cases hlen : get_node_index cfg p < q.buffer_.length
      · rw [getD_set_self _ _ _ _ hlen]
        simp only
        rw [hcopy]
        rfl
      · rw [List.set_eq_of_length_le (by omega)]
    · rw [getD_set_ne _ _ _ _ _ hi]

/-- Whether a read at `p'` returns a present value is the same before and after
a read at `p`. -/
theorem try_read_at_present_independent {T : Type} [Element T] (cfg : Config)
    (q : LockFreeSPMCQueue T) (p p' : Nat) :
    (try_read_at cfg (try_read_at cfg q p).2 p').1.isSome = (try_read_at cfg q p').1.isSome := by
  have h1 := try_read_at_keeps_parity cfg q p (get_node_index cfg p')
  rcases Nat.mod_two_eq_zero_or_one (get_node cfg q p').version_ with h | h
  · have h' : (get_node cfg (try_read_at cfg q p).2 p').version_ % 2 = 0 := by
      unfold get_node; rw [h1]; exact h
    rw [try_read_at_even cfg q p' h, try_read_at_even cfg _ p' h']
  · have h' : (get_node cfg (try_read_at cfg q p).2 p').version_ % 2 = 1 := by
      unfold get_node; rw [h1]; exact h
    rw [try_read_at_odd cfg q p' h, try_read_at_odd cfg _ p' h']
    rfl

/-- When a move leaves its source unchanged, the result of a read at `p'` is the
same before and after a read at `p`. -/
theorem try_read_at_independent {T : Type} [Element T] (cfg : Config)
    (hcopy : MoveIsCopy T) (q : LockFreeSPMCQueue T) (p p' : Nat) :
    (try_read_at cfg (try_read_at cfg q p).2 p').1 = (try_read_at cfg q p').1 := by
  have h1 := try_read_at_keeps_parity cfg q p (get_node_index cfg p')
  have h2 := try_read_at_keeps_storage cfg hcopy q p (get_node_index cfg p')
  rcases Nat.mod_two_eq_zero_or_one (get_node cfg q p').version_ with h | h
  · have h' : (get_node cfg (try_read_at cfg q p).2 p').version_ % 2 = 0 := by
      unfold get_node; rw [h1]; exact h
    rw [try_read_at_even cfg q p' h, try_read_at_even cfg _ p' h']
  · have h' : (get_node cfg (try_read_at cfg q p).2 p').version_ % 2 = 1 := by
      unfold get_node; rw [h1]; exact h
    rw [try_read_at_odd cfg q p' h, try_read_at_odd cfg _ p' h']
    simp only [get_node, h2]

theorem read_queue_eq {T : Type} [Element T] (cfg : Config) (r : Reader)
    (q : LockFreeSPMCQueue T) :
    (Reader.read cfg r q).2.2 = (try_read_at cfg q r.read_position_).2 := rfl

theorem read_absent_reader {T : Type} [Element T] (cfg : Config) (r : Reader)
    (q : LockFreeSPMCQueue T) (h : (Reader.read cfg r q).1 = none) :
    (Reader.read cfg r q).2.1 = r := by
  unfold Reader.read at h ⊢
  simp only at h ⊢
  rw [h]; rfl

/-- What each consumer has received so far, when `vs` was enqueued with no
overwrite: the first `vs.length` values received are the values enqueued, in
order, and until then the cursor equals the number of values received. -/
theorem consumers_step_inv {T : Type} [Element T] (cfg : Config) (hv : cfg.valid)
    (hcopy : MoveIsCopy T) (vs : List T) (hN : vs.length ≤ cfg.SIZE)
    (st : LockFreeSPMCQueue T × List (Reader × List T)) (i : Nat)
    (hq : Published cfg vs st.1)
    (hc : ∀ (n : Nat) (c : Reader × List T), st.2[n]? = some c →
      c.2.take vs.length = vs.take c.2.length ∧
      (c.2.length ≤ vs.length → c.1.read_position_ = c.2.length)) :
    Published cfg vs (consumers_step cfg st i).1 ∧
    (consumers_step cfg st i).2.length = st.2.length ∧
    ∀ (n : Nat) (c : Reader × List T), (consumers_step cfg st i).2[n]? = some c →
      c.2.take vs.length = vs.take c.2.length ∧
      (c.2.length ≤ vs.length → c.1.read_position_ = c.2.length) := by
  unfold consumers_step
  cases hi : st.2[i]? with
  | none => exact ⟨hq, rfl, hc⟩
  | some c =>
    simp only
    obtain ⟨hc1, hc2⟩ := hc i c hi
    refine ⟨?_, by simp, ?_⟩
    · rw [read_queue_eq]; exact published_try_read_at cfg hv hcopy vs _ hq _
    · intro n c' hn
      rw [List.getElem?_set] at hn
      by_cases hin : i = n
      · rw [if_pos hin] at hn
        have hlen : i < st.2.length := by
          by_contra hcon
          rw [List.getElem?_eq_none (by omega)] at hi
          exact absurd hi (by simp)
        rw [if_pos hlen] at hn
        have hc' := (Option.some.inj hn).symm
        subst hc'
        simp only
        by_cases hlt : c.2.length < vs.length
        · have hpos := hc2 (Nat.le_of_lt hlt)
          have hrd := read_published_lt cfg hv vs st.1 c.2.length
            (published_from_of_published cfg vs st.1 hq _) hN hlt
          have hce : c.1 = ⟨c.2.length⟩ := by rw [← hpos]
          rw [hce, hrd]
          simp only [List.getElem?_eq_getElem hlt]
          have hlog : c.2 = vs.take c.2.length := by
            rw [← hc1, List.take_of_length_le (Nat.le_of_lt hlt)]
          refine ⟨?_, fun _ => by simp⟩
          rw [List.take_of_length_le (by simp; omega)]
          simp only [List.length_append, List.length_singleton]
          rw [List.take_succ, List.getElem?_eq_getElem hlt]
          simp only [Option.toList]
          rw [← hlog]
        · cases hres : (Reader.read cfg c.1 st.1).1 with
          | none =>
            simp only
            rw [read_absent_reader cfg c.1 st.1 hres]
            exact ⟨hc1, hc2⟩
          | some x =>
            simp only
            refine ⟨?_, fun hle => ?_⟩
            · rw [List.take_append_of_le_length (by omega), hc1,
                List.take_of_length_le (by omega), List.take_of_length_le (by simp; omega)]
            · simp at hle; omega
      · rw [if_neg hin] at hn
        exact hc n c' hn

theorem consumers_run_inv {T : Type} [Element T] (cfg : Config) (hv : cfg.valid)
    (hcopy : MoveIsCopy T) (vs : List T) (hN : vs.length ≤ cfg.SIZE) (schedule : List Nat) :
    ∀ (st : LockFreeSPMCQueue T × List (Reader × List T)),
    Published cfg vs st.1 →
    (∀ (n : Nat) (c : Reader × List T), st.2[n]? = some c →
      c.2.take vs.length = vs.take c.2.length ∧
      (c.2.length ≤ vs.length → c.1.read_position_ = c.2.length)) →
    Published cfg vs (consumers_run cfg st schedule).1 ∧
    (consumers_run cfg st schedule).2.length = st.2.length ∧
    ∀ (n : Nat) (c : Reader × List T), (consumers_run cfg st schedule).2[n]? = some c →
      c.2.take vs.length = vs.take c.2.length ∧
      (c.2.length ≤ vs.length → c.1.read_position_ = c.2.length) := by
  induction schedule with
  | nil => intro st hq hc; exact ⟨hq, rfl, hc⟩
  | cons i rest ih =>
    intro st hq hc
    obtain ⟨s1, s2, s3⟩ := consumers_step_inv cfg hv hcopy vs hN st i hq hc
    obtain ⟨r1, r2, r3⟩ := ih (consumers_step cfg st i) s1 s3
    simp only [consumers_run, List.foldl_cons] at r1 r2 r3 ⊢
    exact ⟨r1, by rw [r2, s2], r3⟩

/-- C5, as stated for every copyable element type, fails for one whose move
constructor changes its source.  With `std::vector<int>` elements, capacity 2,
the one value [1, 2] enqueued and two readers that each make one successful
`read()`: the first reader receives [1, 2], the second receives the moved-from
empty vector; the first read has changed the value the second read returns. -/
theorem C5_counterexample_second_reader_gets_moved_from :
    ((consumers_run ⟨2, 64, 64⟩
      (consumers_start 2 (enqueue_all ⟨2, 64, 64⟩ (ctor ⟨2, 64, 64⟩) [[1, 2]])) [0, 1]).2.map
        Prod.snd = [[[1, 2]], [[]]]) ∧
    (try_read_at ⟨2, 64, 64⟩ (enqueue_all ⟨2, 64, 64⟩ (ctor ⟨2, 64, 64⟩) [[1, 2]]) 0).1
      = some [1, 2] ∧
    (try_read_at ⟨2, 64, 64⟩
      (try_read_at ⟨2, 64, 64⟩ (enqueue_all ⟨2, 64, 64⟩ (ctor ⟨2, 64, 64⟩) [[1, 2]]) 0).2 0).1
      = some [] := by
  decide

/-- C5 (amended): for an element type whose move constructor leaves its source
unchanged (a trivially copyable type, as the `int` of the benchmark), every
number R of readers from `create_reader()`, every N ≤ C and values
v_0..v_{N-1}: after the N enqueues, under every interleaving of whole `read()`
calls of the R readers, the first N values a reader receives are v_0, v_1, ...
in that order, so a reader that has made N successful reads has received exactly
v_0, ..., v_{N-1}; and a read at one position never changes the value or
presence another read returns. -/
theorem C5_every_reader_sees_every_value {T : Type} [Element T] (cfg : Config)
    (hv : cfg.valid) (hcopy : MoveIsCopy T) (vs : List T) (hN : vs.length ≤ cfg.SIZE)
    (R : Nat) (schedule : List Nat) :
    (consumers_run cfg (consumers_start R (enqueue_all cfg (ctor cfg) vs)) schedule).2.length
      = R ∧
    (∀ (i : Nat) (c : Reader × List T),
      (consumers_run cfg (consumers_start R (enqueue_all cfg (ctor cfg) vs)) schedule).2[i]?
        = some c →
      c.2.take vs.length = vs.take c.2.length ∧ (c.2.length = vs.length → c.2 = vs)) ∧
    (∀ (q : LockFreeSPMCQueue T) (p p' : Nat),
      (try_read_at cfg (try_read_at cfg q p).2 p').1 = (try_read_at cfg q p').1) := by
  have hW : vs.length ≤ WORD := by have := hv.2; omega
  obtain ⟨hp, _⟩ := published_enqueue_all cfg hv vs hW
  have hstart : ∀ (n : Nat) (c : Reader × List T), (consumers_start R (enqueue_all cfg (ctor cfg) vs)).2[n]? = some c →
      c.2.take vs.length = vs.take c.2.length ∧
      (c.2.length ≤ vs.length → c.1.read_position_ = c.2.length) := by
    intro n c hn
    unfold consumers_start at hn
    simp only [List.getElem?_replicate] at hn
    split at hn
    · have := (Option.some.inj hn).symm
      subst this
      simp [create_reader]
    · exact absurd hn (by simp)
  obtain ⟨_, r2, r3⟩ := consumers_run_inv cfg hv hcopy vs hN schedule _ hp hstart
  refine ⟨?_, ?_, try_read_at_independent cfg hcopy⟩
  · rw [r2]; simp [consumers_start]
  · intro i c hc
    obtain ⟨t1, _⟩ := r3 i c hc
    refine ⟨t1, fun hl => ?_⟩
    rw [hl, List.take_of_length_le (Nat.le_refl _)] at t1
    rw [← t1, ← hl, List.take_of_length_le (Nat.le_refl _)]

theorem C5_every_reader_sees_every_value_witness :
    (⟨2, 64, 64⟩ : Config).valid ∧ MoveIsCopy Nat ∧
    [10, 20].length ≤ (⟨2, 64, 64⟩ : Config).SIZE ∧
    (consumers_run ⟨2, 64, 64⟩
      (consumers_start 2 (enqueue_all ⟨2, 64, 64⟩ (ctor ⟨2, 64, 64⟩) [10, 20])) [0, 1, 1, 0]).2.map
        Prod.snd = [[10, 20], [10, 20]] ∧
    (∀ (i : Nat) (c : Reader × List Nat),
      (consumers_run ⟨2, 64, 64⟩
        (consumers_start 2 (enqueue_all ⟨2, 64, 64⟩ (ctor ⟨2, 64, 64⟩) [10, 20]))
          [0, 1, 1, 0]).2[i]? = some c →
      c.2.take [10, 20].length = [10, 20].take c.2.length ∧
      (c.2.length = [10, 20].length → c.2 = [10, 20])) :=
  ⟨by decide, fun _ => rfl, by decide, by decide,
    (C5_every_reader_sees_every_value ⟨2, 64, 64⟩ (by decide) (fun _ => rfl) [10, 20]
      (by decide) 2 [0, 1, 1, 0]).2.1⟩

theorem step_write_counter {T : Type} [Element T] (cfg : Config) (w : World T) (op : Op T) :
    (World.step cfg w op).queue.write_counter_ =
      match op with
      | Op.enqueue _ => (w.queue.write_counter_ + 1) % WORD
      | _ => w.queue.write_counter_ := by
  cases op with
  | enqueue item => rfl
  | try_read_at position => exact try_read_at_write_counter cfg w.queue position
  | create_reader => rfl
  | create_reader_at position => rfl
  | try_read i =>
    simp only [World.step]
    cases w.readers[i]? with
    | none => rfl
    | some r => exact try_read_at_write_counter cfg w.queue _
  | read i =>
    simp only [World.step]
    cases w.readers[i]? with
    | none => rfl
    | some r => exact try_read_at_write_counter cfg w.queue _
  | advance i count =>
    simp only [World.step]
    cases w.readers[i]? <;> rfl
  | reset i position =>
    simp only [World.step]
    cases w.readers[i]? <;> rfl

/-- The write counter after a sequence of calls, as long as it does not wrap:
it has grown by the number of `enqueue` calls. -/
theorem run_write_counter {T : Type} [Element T] (cfg : Config) (ops : List (Op T)) :
    ∀ (w : World T), w.queue.write_counter_ + enqueue_count ops < WORD →
      (World.run cfg w ops).queue.write_counter_ = w.queue.write_counter_ + enqueue_count ops := by
  induction ops with
  | nil => intro w _; rfl
  | cons op rest ih =>
    intro w hw
    have hs := step_write_counter cfg w op
    simp only [World.run, List.foldl_cons]
    cases op with
    | enqueue item =>
      simp only [enqueue_count] at hw ⊢
      simp only at hs
      rw [Nat.mod_eq_of_lt (by omega)] at hs
      have := ih (World.step cfg w (Op.enqueue item)) (by rw [hs]; omega)
      simp only [World.run] at this
      rw [this, hs]; omega
    | try_read_at position =>
      simp only [enqueue_count] at hw ⊢
      simp only at hs
      have := ih (World.step cfg w (Op.try_read_at position)) (by rw [hs]; omega)
      simp only [World.run] at this
      rw [this, hs]
    | create_reader =>
      simp only [enqueue_count] at hw ⊢
      simp only at hs
      have := ih (World.step cfg w Op.create_reader) (by rw [hs]; omega)
      simp only [World.run] at this
      rw [this, hs]
    | create_reader_at position =>
      simp only [enqueue_count] at hw ⊢
      simp only at hs
      have := ih (World.step cfg w (Op.create_reader_at position)) (by rw [hs]; omega)
      simp only [World.run] at this
      rw [this, hs]
    | try_read i =>
      simp only [enqueue_count] at hw ⊢
      simp only at hs
      have := ih (World.step cfg w (Op.try_read i)) (by rw [hs]; omega)
      simp only [World.run] at this
      rw [this, hs]
    | read i =>
      simp only [enqueue_count] at hw ⊢
      simp only at hs
      have := ih (World.step cfg w (Op.read i)) (by rw [hs]; omega)
      simp only [World.run] at this
      rw [this, hs]
    | advance i count =>
      simp only [enqueue_count] at hw ⊢
      simp only at hs
      have := ih (World.step cfg w (Op.advance i count)) (by rw [hs]; omega)
      simp only [World.run] at this
      rw [this, hs]
    | reset i position =>
      simp only [enqueue_count] at hw ⊢
      simp only at hs
      have := ih (World.step cfg w (Op.reset i position)) (by rw [hs]; omega)
      simp only [World.run] at this
      rw [this, hs]

theorem enqueue_all_write_counter {T : Type} [Element T] (cfg : Config) (vs : List T) :
    ∀ (q : LockFreeSPMCQueue T), q.write_counter_ + vs.length < WORD →
      (enqueue_all cfg q vs).write_counter_ = q.write_counter_ + vs.length := by
  induction vs with
  | nil => intro q _; rfl
  | cons v rest ih =>
    intro q hq
    simp only [List.length_cons] at hq
    simp only [enqueue_all, List.foldl_cons]
    have := ih (enqueue cfg q v).2 (by
      rw [enqueue_write_counter, Nat.mod_eq_of_lt (by omega)]; omega)
    simp only [enqueue_all] at this
    rw [this, enqueue_write_counter, Nat.mod_eq_of_lt (by omega), List.length_cons]
    omega

/-- C6: in every queue state and for every position p, `empty_at(p)` is true if
and only if p ≥ `write_position()`; on a fresh queue it is true for every p; and
after k enqueues on a fresh queue, k below 2^64 (alone, or mixed with any other
calls on the queue and its readers), it is true exactly for p ≥ k. -/
theorem C6_empty_at_iff_at_or_past_write_position {T : Type} [Element T] (cfg : Config) :
    (∀ (q : LockFreeSPMCQueue T) (p : Nat), empty_at q p = true ↔ p ≥ write_position q) ∧
    (∀ (p : Nat), empty_at (ctor cfg : LockFreeSPMCQueue T) p = true) ∧
    (∀ (vs : List T) (p : Nat), vs.length < WORD →
      (empty_at (enqueue_all cfg (ctor cfg) vs) p = true ↔ p ≥ vs.length)) ∧
    (∀ (ops : List (Op T)) (readers : List Reader) (p : Nat), enqueue_count ops < WORD →
      (empty_at (World.run cfg ⟨ctor cfg, readers⟩ ops).queue p = true ↔
        p ≥ enqueue_count ops)) := by
  refine ⟨fun q p => by simp [empty_at, write_position], fun p => by simp [empty_at, ctor],
    fun vs p hk => ?_, fun ops readers p hk => ?_⟩
  · have h := enqueue_all_write_counter cfg vs (ctor cfg) (by simpa [ctor] using hk)
    simp only [empty_at, decide_eq_true_eq, h]
    simp [ctor]
  · have h := run_write_counter cfg ops ⟨ctor cfg, readers⟩ (by simpa [ctor] using hk)
    simp only [empty_at, decide_eq_true_eq, h]
    simp [ctor]

theorem C6_empty_at_iff_at_or_past_write_position_witness :
    [10, 20].length < WORD ∧
    (empty_at (enqueue_all ⟨4, 64, 64⟩ (ctor ⟨4, 64, 64⟩) [10, 20]) 1 = true ↔ 1 ≥ [10, 20].length) ∧
    (empty_at (enqueue_all ⟨4, 64, 64⟩ (ctor ⟨4, 64, 64⟩) [10, 20]) 2 = true ↔ 2 ≥ [10, 20].length) :=
  ⟨by decide,
    (C6_empty_at_iff_at_or_past_write_position ⟨4, 64, 64⟩).2.2.1 [10, 20] 1 (by decide),
    (C6_empty_at_iff_at_or_past_write_position ⟨4, 64, 64⟩).2.2.1 [10, 20] 2 (by decide)⟩

/-- C7: `empty_at` never regresses: for every position p and every state in
which `empty_at(p)` is false, it is false in every state reached by any further
sequence of `enqueue`, `try_read_at` and reader calls, as long as the write
counter does not wrap; over such a sequence `write_position()` grows by exactly
the number of `enqueue` calls: each `enqueue` raises it by 1 and no read
changes it. -/
theorem C7_empty_at_never_regresses {T : Type} [Element T] (cfg : Config) (w : World T)
    (ops : List (Op T)) (p : Nat)
    (hno : w.queue.write_counter_ + enqueue_count ops < WORD) :
    (empty_at w.queue p = false → empty_at (World.run cfg w ops).queue p = false) ∧
    write_position (World.run cfg w ops).queue = write_position w.queue + enqueue_count ops ∧
    write_position w.queue ≤ write_position (World.run cfg w ops).queue ∧
    (∀ (q : LockFreeSPMCQueue T) (item : T), q.write_counter_ + 1 < WORD →
      write_position (enqueue cfg q item).2 = write_position q + 1) ∧
    (∀ (q : LockFreeSPMCQueue T) (position : Nat),
      write_position (try_read_at cfg q position).2 = write_position q) ∧
    (∀ (q : LockFreeSPMCQueue T) (r : Reader),
      write_position (Reader.read cfg r q).2.2 = write_position q ∧
      write_position (Reader.try_read cfg r q).2 = write_position q) := by
  have h := run_write_counter cfg ops w hno
  refine ⟨?_, h, ?_, ?_, fun q position => try_read_at_write_counter cfg q position,
    fun q r => ⟨try_read_at_write_counter cfg q _, try_read_at_write_counter cfg q _⟩⟩
  · simp only [empty_at, decide_eq_false_iff_not, h]
    omega
  · simp only [write_position, h]; omega
  · intro q item hq
    simp only [write_position, enqueue_write_counter]
    exact Nat.mod_eq_of_lt hq

theorem C7_empty_at_never_regresses_witness :
    (World.mk (enqueue_all ⟨2, 64, 64⟩ (ctor ⟨2, 64, 64⟩) [10]) [create_reader]).queue.write_counter_
      + enqueue_count [Op.read 0, Op.enqueue 20, Op.try_read_at 5, Op.reset 0 7, Op.enqueue 30]
      < WORD ∧
    empty_at (enqueue_all ⟨2, 64, 64⟩ (ctor ⟨2, 64, 64⟩) [10]) 0 = false ∧
    empty_at (World.run ⟨2, 64, 64⟩
      (World.mk (enqueue_all ⟨2, 64, 64⟩ (ctor ⟨2, 64, 64⟩) [10]) [create_reader])
      [Op.read 0, Op.enqueue 20, Op.try_read_at 5, Op.reset 0 7, Op.enqueue 30]).queue 0 = false :=
  ⟨by decide, by decide,
    (C7_empty_at_never_regresses ⟨2, 64, 64⟩
      (World.mk (enqueue_all ⟨2, 64, 64⟩ (ctor ⟨2, 64, 64⟩) [10]) [create_reader])
      [Op.read 0, Op.enqueue 20, Op.try_read_at 5, Op.reset 0 7, Op.enqueue 30] 0
      (by decide)).1 (by decide)⟩

/-- C8: `Reader::read()` advances the cursor exactly on success: for every
reader and queue state, if `read()` returns a present value then `position()`
afterwards is `position()` before plus 1 (the `size_t` sum, which is the plain
sum whenever that does not exceed the largest `size_t`), the value is the one
`try_read_at(old position)` yields and the queue is left as `try_read_at`
leaves it; if `read()` returns absent then `position()` is unchanged. -/
theorem C8_read_advances_exactly_on_success {T : Type} [Element T] (cfg : Config)
    (r : Reader) (q : LockFreeSPMCQueue T) :
    (∀ x : T, (Reader.read cfg r q).1 = some x →
      (Reader.read cfg r q).2.1.position = (r.position + 1) % WORD ∧
      (r.position + 1 < WORD → (Reader.read cfg r q).2.1.position = r.position + 1) ∧
      (try_read_at cfg q r.position).1 = some x ∧
      (Reader.read cfg r q).2.2 = (try_read_at cfg q r.position).2) ∧
    ((Reader.read cfg r q).1 = none →
      (Reader.read cfg r q).2.1.position = r.position ∧ (Reader.read cfg r q).2.1 = r) := by
  refine ⟨fun x hx => ?_, fun hn => ?_⟩
  · have hx' : (try_read_at cfg q r.read_position_).1 = some x := hx
    have hpos : (Reader.read cfg r q).2.1.position = (r.position + 1) % WORD := by
      simp only [Reader.read, Reader.try_read, hx', Reader.position]
      rfl
    refine ⟨hpos, fun hlt => ?_, hx', rfl⟩
    rw [hpos, Nat.mod_eq_of_lt hlt]
  · have := read_absent_reader cfg r q hn
    exact ⟨by rw [this], this⟩

theorem C8_read_advances_exactly_on_success_witness :
    (Reader.read ⟨2, 64, 64⟩ create_reader
      (enqueue_all ⟨2, 64, 64⟩ (ctor ⟨2, 64, 64⟩) [10])).1 = some 10 ∧
    create_reader.position + 1 < WORD ∧
    (Reader.read ⟨2, 64, 64⟩ create_reader
      (enqueue_all ⟨2, 64, 64⟩ (ctor ⟨2, 64, 64⟩) [10])).2.1.position
        = create_reader.position + 1 ∧
    ((Reader.read ⟨2, 64, 64⟩ create_reader (ctor ⟨2, 64, 64⟩ : LockFreeSPMCQueue Nat)).1 = none ∧
    (Reader.read ⟨2, 64, 64⟩ create_reader
      (ctor ⟨2, 64, 64⟩ : LockFreeSPMCQueue Nat)).2.1.position = create_reader.position) :=
  ⟨by decide, by decide,
    ((C8_read_advances_exactly_on_success ⟨2, 64, 64⟩ create_reader
      (enqueue_all ⟨2, 64, 64⟩ (ctor ⟨2, 64, 64⟩) [10])).1 10 (by decide)).2.1 (by decide),
    by decide,
    ((C8_read_advances_exactly_on_success ⟨2, 64, 64⟩ create_reader
      (ctor ⟨2, 64, 64⟩ : LockFreeSPMCQueue Nat)).2 (by decide)).1⟩

/-- C9: `try_read_at(p)` is decided by the parity of the version of slot
p mod C, the node `PADDING + p mod C` of the buffer: if the version is even it
returns absent and leaves the whole queue state unchanged; if it is odd it
returns the element stored in that slot and adds 2 (as a `uint64_t` sum) to that
slot's version, which stays odd, leaving the write counter and every other node
of the buffer unchanged; the slot's own element is left in its moved-from state,
which is the element itself when a move leaves its source unchanged. -/
theorem C9_try_read_at_decided_by_parity {T : Type} [Element T] (cfg : Config)
    (hv : cfg.valid) (q : LockFreeSPMCQueue T) (hl : q.buffer_.length = BUFFER_SIZE cfg)
    (p : Nat) :
    get_node_index cfg p = PADDING cfg + p % cfg.SIZE ∧
    ((slot cfg q (p % cfg.SIZE)).version_ % 2 = 0 → try_read_at cfg q p = (none, q)) ∧
    ((slot cfg q (p % cfg.SIZE)).version_ % 2 = 1 →
      (try_read_at cfg q p).1 = some (slot cfg q (p % cfg.SIZE)).storage_ ∧
      (slot cfg (try_read_at cfg q p).2 (p % cfg.SIZE)).version_
        = ((slot cfg q (p % cfg.SIZE)).version_ + 2) % WORD ∧
      ((slot cfg q (p % cfg.SIZE)).version_ + 2 < WORD →
        (slot cfg (try_read_at cfg q p).2 (p % cfg.SIZE)).version_
          = (slot cfg q (p % cfg.SIZE)).version_ + 2) ∧
      (slot cfg (try_read_at cfg q p).2 (p % cfg.SIZE)).version_ % 2 = 1 ∧
      (slot cfg (try_read_at cfg q p).2 (p % cfg.SIZE)).storage_
        = Element.moved_from (slot cfg q (p % cfg.SIZE)).storage_ ∧
      (MoveIsCopy T →
        (slot cfg (try_read_at cfg q p).2 (p % cfg.SIZE)).storage_
          = (slot cfg q (p % cfg.SIZE)).storage_) ∧
      (try_read_at cfg q p).2.write_counter_ = q.write_counter_ ∧
      (try_read_at cfg q p).2.buffer_.length = q.buffer_.length ∧
      ∀ i : Nat, i ≠ PADDING cfg + p % cfg.SIZE →
        (try_read_at cfg q p).2.buffer_[i]? = q.buffer_[i]?) := by
  have hm := Nat.mod_lt p (show cfg.SIZE > 0 from hv.1)
  refine ⟨get_node_index_eq cfg hv p, fun he => ?_, fun ho => ?_⟩
  · exact try_read_at_even cfg q p (by rw [get_node_eq_slot cfg hv]; exact he)
  · have hs := slot_try_read_at cfg hv q hl p (p % cfg.SIZE) hm
    rw [if_pos ⟨rfl, ho⟩] at hs
    have hfst := try_read_at_fst cfg hv q p
    rw [if_pos ho] at hfst
    refine ⟨hfst, by rw [hs], fun hlt => by rw [hs]; exact Nat.mod_eq_of_lt hlt,
      by rw [hs]; exact odd_add_two_mod _ ho, by rw [hs],
      fun hcopy => by rw [hs]; exact hcopy _,
      try_read_at_write_counter cfg q p, try_read_at_length cfg q p, fun i hi => ?_⟩
    have ho' : (get_node cfg q p).version_ % 2 = 1 := by
      rw [get_node_eq_slot cfg hv]; exact ho
    rw [try_read_at_odd cfg q p ho']
    simp only
    rw [get_node_index_eq cfg hv, List.getElem?_set_ne (Ne.symm hi)]

theorem C9_try_read_at_decided_by_parity_witness :
    (⟨2, 64, 64⟩ : Config).valid ∧
    (enqueue_all ⟨2, 64, 64⟩ (ctor ⟨2, 64, 64⟩) [10]).buffer_.length = BUFFER_SIZE ⟨2, 64, 64⟩ ∧
    (slot ⟨2, 64, 64⟩ (enqueue_all ⟨2, 64, 64⟩ (ctor ⟨2, 64, 64⟩) [10])
      (0 % (⟨2, 64, 64⟩ : Config).SIZE)).version_ % 2 = 1 ∧
    (try_read_at ⟨2, 64, 64⟩ (enqueue_all ⟨2, 64, 64⟩ (ctor ⟨2, 64, 64⟩) [10]) 0).1
      = some (slot ⟨2, 64, 64⟩ (enqueue_all ⟨2, 64, 64⟩ (ctor ⟨2, 64, 64⟩) [10])
        (0 % (⟨2, 64, 64⟩ : Config).SIZE)).storage_ ∧
    (slot ⟨2, 64, 64⟩ (enqueue_all ⟨2, 64, 64⟩ (ctor ⟨2, 64, 64⟩) [10])
      (1 % (⟨2, 64, 64⟩ : Config).SIZE)).version_ % 2 = 0 ∧
    try_read_at ⟨2, 64, 64⟩ (enqueue_all ⟨2, 64, 64⟩ (ctor ⟨2, 64, 64⟩) [10]) 1
      = (none, enqueue_all ⟨2, 64, 64⟩ (ctor ⟨2, 64, 64⟩) [10]) :=
  ⟨by decide, by decide, by decide,
    ((C9_try_read_at_decided_by_parity ⟨2, 64, 64⟩ (by decide)
      (enqueue_all ⟨2, 64, 64⟩ (ctor ⟨2, 64, 64⟩) [10]) (by decide) 0).2.2 (by decide)).1,
    by decide,
    (C9_try_read_at_decided_by_parity ⟨2, 64, 64⟩ (by decide)
      (enqueue_all ⟨2, 64, 64⟩ (ctor ⟨2, 64, 64⟩) [10]) (by decide) 1).2.1 (by decide)⟩

theorem flatMap_fst_filter {T : Type} (b : List (Node T)) (l : List Nat) :
    (l.flatMap (fun i => match b[i]? with
      | some n => (Node.dtor n).map (fun x => (i, x))
      | none => [])).map Prod.fst
    = l.filter (fun i => match b[i]? with
      | some n => n.version_ % 2 == 1
      | none => false) := by
  induction l with
  | nil => rfl
  | cons i rest ih =>
    simp only [List.flatMap_cons, List.map_append, ih, List.filter_cons]
    cases hb : b[i]? with
    | none => simp
    | some n =>
      simp only [Node.dtor]
      by_cases ho : n.version_ % 2 = 1
      · simp [ho]
      · simp [ho]

/-- What the destruction of the queue destroys: `~T()` runs once on every node
whose version is odd, on no node twice and on no other node. -/
theorem dtor_once_per_odd_node {T : Type} (q : LockFreeSPMCQueue T) :
    (dtor q).map Prod.fst
      = (List.range q.buffer_.length).reverse.filter (fun i => match q.buffer_[i]? with
        | some n => n.version_ % 2 == 1
        | none => false) ∧
    ((dtor q).map Prod.fst).Nodup := by
  have h : (dtor q).map Prod.fst
      = (List.range q.buffer_.length).reverse.filter (fun i => match q.buffer_[i]? with
        | some n => n.version_ % 2 == 1
        | none => false) :=
    flatMap_fst_filter q.buffer_ (List.range q.buffer_.length).reverse
  refine ⟨h, ?_⟩
  rw [h]
  exact List.Nodup.filter _ (List.nodup_reverse.mpr (List.nodup_range _))

/-- C10 (failing input): capacity 1, `enqueue(10)` then `enqueue(20)`, then the
queue is destroyed.  After the first call the slot holds the live element 10
(version 1); the second call constructs 20 over it (version 3) without a
destructor call; destruction runs `~T()` once, on 20.  Two elements were
constructed and one destroyed: 10 is never destroyed. -/
theorem C10_overwritten_element_is_never_destroyed :
    slot ⟨1, 64, 64⟩ (enqueue_all ⟨1, 64, 64⟩ (ctor ⟨1, 64, 64⟩) [10]) 0 = ⟨1, 10⟩ ∧
    slot ⟨1, 64, 64⟩ (enqueue_all ⟨1, 64, 64⟩ (ctor ⟨1, 64, 64⟩) [10, 20]) 0 = ⟨3, 20⟩ ∧
    dtor (enqueue_all ⟨1, 64, 64⟩ (ctor ⟨1, 64, 64⟩) [10, 20]) = [(1, 20)] ∧
    (dtor (enqueue_all ⟨1, 64, 64⟩ (ctor ⟨1, 64, 64⟩) [10, 20])).length < [10, 20].length ∧
    10 ∉ (dtor (enqueue_all ⟨1, 64, 64⟩ (ctor ⟨1, 64, 64⟩) [10, 20])).map Prod.snd := by
  decide

/-- Effect of `enqueue` on every node of the buffer. -/
theorem enqueue_node {T : Type} [Element T] (cfg : Config) (q : LockFreeSPMCQueue T)
    (item : T) (i : Nat) :
    (enqueue cfg q item).2.buffer_.getD i default =
      if i = get_node_index cfg q.write_counter_ ∧ i < q.buffer_.length then
        ⟨if (q.buffer_.getD i default).version_ % 2 = 1
          then ((q.buffer_.getD i default).version_ + 2) % WORD
          else ((q.buffer_.getD i default).version_ + 1) % WORD, item⟩
      else q.buffer_.getD i default := by
  rw [enqueue_buffer]
  by_cases h : i = get_node_index cfg q.write_counter_
  · subst h
    by_cases hl : get_node_index cfg q.write_counter_ < q.buffer_.length
    · have hc : get_node_index cfg q.write_counter_ = get_node_index cfg q.write_counter_ ∧
          get_node_index cfg q.write_counter_ < q.buffer_.length := ⟨rfl, hl⟩
      rw [getD_set_self _ _ _ _ hl, if_pos hc]; rfl
    · have hc : ¬ (get_node_index cfg q.write_counter_ = get_node_index cfg q.write_counter_ ∧
          get_node_index cfg q.write_counter_ < q.buffer_.length) := fun hh => hl hh.2
      rw [List.set_eq_of_length_le (by omega), if_neg hc]
  · have hc : ¬ (i = get_node_index cfg q.write_counter_ ∧ i < q.buffer_.length) :=
      fun hh => h hh.1
    rw [getD_set_ne _ _ _ _ _ (Ne.symm h), if_neg hc]

/-- Effect of `try_read_at` on every node of the buffer. -/
theorem try_read_at_node {T : Type} [Element T] (cfg : Config) (q : LockFreeSPMCQueue T)
    (p : Nat) (i : Nat) :
    (try_read_at cfg q p).2.buffer_.getD i default =
      if i = get_node_index cfg p ∧ i < q.buffer_.length ∧
          (q.buffer_.getD i default).version_ % 2 = 1 then
        ⟨((q.buffer_.getD i default).version_ + 2) % WORD,
          Element.moved_from (q.buffer_.getD i default).storage_⟩
      else q.buffer_.getD i default := by
  rcases Nat.mod_two_eq_zero_or_one (get_node cfg q p).version_ with h | h
  · rw [try_read_at_even cfg q p h, if_neg]
    rintro ⟨h1, _, h3⟩
    subst h1
    unfold get_node at h
    omega
  · rw [try_read_at_odd cfg q p h]
    simp only
    by_cases hi : i = get_node_index cfg p
    · subst hi
      by_cases hl : get_node_index cfg p < q.buffer_.length
      · rw [getD_set_self _ _ _ _ hl, if_pos ⟨rfl, hl, h⟩]; rfl
      · rw [List.set_eq_of_length_le (by omega), if_neg (fun hh => hl hh.2.1)]
    · rw [getD_set_ne _ _ _ _ _ (Ne.symm hi), if_neg (fun hh => hi hh.1)]

theorem even_add_one_mod (v : Nat) (h : v % 2 = 0) : (v + 1) % WORD % 2 = 1 := by
  unfold WORD; omega

/-- The queue of a world after any call other than `enqueue` is the queue before
it or the result of one `try_read_at`. -/
theorem step_queue_cases {T : Type} [Element T] (cfg : Config) (w : World T) (op : Op T) :
    (∃ item, op = Op.enqueue item ∧ (World.step cfg w op).queue = (enqueue cfg w.queue item).2) ∨
    ((∀ item, op ≠ Op.enqueue item) ∧
      ((World.step cfg w op).queue = w.queue ∨
        ∃ p, (World.step cfg w op).queue = (try_read_at cfg w.queue p).2)) := by
  cases op with
  | enqueue item => exact Or.inl ⟨item, rfl, rfl⟩
  | try_read_at position =>
    exact Or.inr ⟨(fun _ h => by cases h), Or.inr ⟨position, rfl⟩⟩
  | create_reader => exact Or.inr ⟨(fun _ h => by cases h), Or.inl rfl⟩
  | create_reader_at position => exact Or.inr ⟨(fun _ h => by cases h), Or.inl rfl⟩
  | try_read i =>
    refine Or.inr ⟨(fun _ h => by cases h), ?_⟩
    simp only [World.step]
    cases hr : w.readers[i]? with
    | none => exact Or.inl rfl
    | some r => exact Or.inr ⟨r.read_position_, rfl⟩
  | read i =>
    refine Or.inr ⟨(fun _ h => by cases h), ?_⟩
    simp only [World.step]
    cases hr : w.readers[i]? with
    | none => exact Or.inl rfl
    | some r => exact Or.inr ⟨r.read_position_, rfl⟩
  | advance i count =>
    refine Or.inr ⟨(fun _ h => by cases h), ?_⟩
    simp only [World.step]
    cases hr : w.readers[i]? <;> exact Or.inl rfl
  | reset i position =>
    refine Or.inr ⟨(fun _ h => by cases h), ?_⟩
    simp only [World.step]
    cases hr : w.readers[i]? <;> exact Or.inl rfl

theorem traced_step_written_other {T : Type} [Element T] (cfg : Config) (t : Traced T)
    (op : Op T) (h : ∀ item, op ≠ Op.enqueue item) :
    (Traced.step cfg t op).written = t.written := by
  cases op with
  | enqueue item => exact absurd rfl (h item)
  | try_read_at position => rfl
  | create_reader => rfl
  | create_reader_at position => rfl
  | try_read i => rfl
  | read i => rfl
  | advance i count => rfl
  | reset i position => rfl

theorem slot_parity_try_read_at {T : Type} [Element T] (cfg : Config)
    (q : LockFreeSPMCQueue T) (g : Nat → Option T) (p : Nat)
    (h : ∀ i : Nat,
      ((q.buffer_.getD i default).version_ % 2 = 1 ↔ ∃ x, g i = some x) ∧
      ((q.buffer_.getD i default).version_ = 0 ↔ g i = none) ∧
      (∀ x, g i = some x →
        ∃ n : Nat, (q.buffer_.getD i default).storage_ = Nat.iterate Element.moved_from n x)) :
    ∀ i : Nat,
      (((try_read_at cfg q p).2.buffer_.getD i default).version_ % 2 = 1 ↔
        ∃ x, g i = some x) ∧
      (((try_read_at cfg q p).2.buffer_.getD i default).version_ = 0 ↔ g i = none) ∧
      (∀ x, g i = some x →
        ∃ n : Nat, ((try_read_at cfg q p).2.buffer_.getD i default).storage_
          = Nat.iterate Element.moved_from n x) := by
  intro i
  obtain ⟨h1, h2, h3⟩ := h i
  rw [try_read_at_node]
  split
  · rename_i hc
    obtain ⟨_, _, ho⟩ := hc
    simp only
    have hodd := odd_add_two_mod _ ho
    refine ⟨⟨fun _ => h1.mp ho, fun _ => hodd⟩, ⟨fun h0 => by omega, fun hn => ?_⟩,
      fun x hx => ?_⟩
    · have := h2.mpr hn
      omega
    · obtain ⟨n, hn⟩ := h3 x hx
      exact ⟨n + 1, by rw [hn, Function.iterate_succ_apply']⟩
  · exact ⟨h1, h2, h3⟩

/-- Every whole call preserves the slot parity invariant. -/
theorem slot_parity_step {T : Type} [Element T] (cfg : Config) (hv : cfg.valid)
    (t : Traced T) (op : Op T) (h : SlotParity cfg t) : SlotParity cfg (Traced.step cfg t op) := by
  obtain ⟨hl, hn⟩ := h
  rcases step_queue_cases cfg t.world op with ⟨item, rfl, _⟩ | ⟨hne, hq⟩
  · refine ⟨by show (enqueue cfg t.world.queue item).2.buffer_.length = _
               rw [enqueue_length, hl], ?_⟩
    intro i
    show (((enqueue cfg t.world.queue item).2.buffer_.getD i default).version_ % 2 = 1 ↔
        ∃ x, Function.update t.written (get_node_index cfg t.world.queue.write_counter_)
          (some item) i = some x) ∧
      (((enqueue cfg t.world.queue item).2.buffer_.getD i default).version_ = 0 ↔
        Function.update t.written (get_node_index cfg t.world.queue.write_counter_)
          (some item) i = none) ∧
      (∀ x, Function.update t.written (get_node_index cfg t.world.queue.write_counter_)
          (some item) i = some x →
        ∃ n : Nat, ((enqueue cfg t.world.queue item).2.buffer_.getD i default).storage_
          = Nat.iterate Element.moved_from n x)
    obtain ⟨h1, h2, h3⟩ := hn i
    rw [enqueue_node]
    by_cases hi : i = get_node_index cfg t.world.queue.write_counter_
    · have hlen : i < t.world.queue.buffer_.length := by
        rw [hi, hl]; exact get_node_index_lt cfg hv _
      rw [if_pos ⟨hi, hlen⟩, hi, Function.update_same]
      rw [← hi]
      simp only
      have hodd : (if (t.world.queue.buffer_.getD i default).version_ % 2 = 1
          then ((t.world.queue.buffer_.getD i default).version_ + 2) % WORD
          else ((t.world.queue.buffer_.getD i default).version_ + 1) % WORD) % 2 = 1 := by
        split
        · rename_i ho; exact odd_add_two_mod _ ho
        · rename_i ho; exact even_add_one_mod _ (by omega)
      refine ⟨⟨fun _ => ⟨item, rfl⟩, fun _ => hodd⟩, ⟨fun h0 => by omega, fun hc => ?_⟩,
        fun x hx => ⟨0, Option.some.inj hx⟩⟩
      exact absurd hc (by simp)
    · rw [if_neg (fun hh => hi hh.1), Function.update_noteq hi]
      exact ⟨h1, h2, h3⟩
  · have hw : (Traced.step cfg t op).world = World.step cfg t.world op := rfl
    rw [SlotParity, traced_step_written_other cfg t op hne, hw]
    rcases hq with hq | ⟨p, hq⟩
    · rw [hq]; exact ⟨hl, hn⟩
    · rw [hq]
      exact ⟨by rw [try_read_at_length, hl], slot_parity_try_read_at cfg _ _ p hn⟩

theorem slot_parity_fresh {T : Type} [Element T] (cfg : Config) (readers : List Reader) :
    SlotParity cfg (Traced.fresh cfg readers : Traced T) := by
  refine ⟨by simp [Traced.fresh, ctor], ?_⟩
  intro i
  have hd : (Traced.fresh cfg readers : Traced T).world.queue.buffer_.getD i default
      = default := by
    simp only [Traced.fresh, ctor, List.getD_eq_getElem?_getD, List.getElem?_replicate]
    split <;> rfl
  rw [hd]
  have hz : (default : Node T).version_ = 0 := rfl
  rw [hz]
  refine ⟨⟨fun h => by omega, fun ⟨x, hx⟩ => ?_⟩, ⟨fun _ => rfl, fun _ => rfl⟩, fun x hx => ?_⟩
  · simp [Traced.fresh] at hx
  · simp [Traced.fresh] at hx

theorem slot_parity_run {T : Type} [Element T] (cfg : Config) (hv : cfg.valid)
    (ops : List (Op T)) :
    ∀ t : Traced T, SlotParity cfg t → SlotParity cfg (Traced.run cfg t ops) := by
  induction ops with
  | nil => intro t h; exact h
  | cons op rest ih =>
    intro t h
    exact ih _ (slot_parity_step cfg hv t op h)

theorem traced_run_world {T : Type} [Element T] (cfg : Config) (ops : List (Op T)) :
    ∀ t : Traced T, (Traced.run cfg t ops).world = World.run cfg t.world ops := by
  induction ops with
  | nil => intro t; rfl
  | cons op rest ih =>
    intro t
    simp only [Traced.run, World.run, List.foldl_cons]
    exact ih (Traced.step cfg t op)

/-- In a state with the slot parity invariant every version is 0 or odd. -/
theorem slot_parity_zero_or_odd {T : Type} [Element T] (cfg : Config) (t : Traced T)
    (h : SlotParity cfg t) (i : Nat) :
    (t.world.queue.buffer_.getD i default).version_ = 0 ∨
      (t.world.queue.buffer_.getD i default).version_ % 2 = 1 := by
  obtain ⟨h1, h2, _⟩ := h.2 i
  cases hw : t.written i with
  | none => exact Or.inl (h2.mpr hw)
  | some x => exact Or.inr (h1.mpr ⟨x, hw⟩)

/-- C11: in every state reachable from a fresh queue by enqueue and read
operations, every version is 0 or odd (an even non-zero version is never seen
between operations), and an `enqueue` whose target slot has version v leaves that
slot with an odd version: 1 if the slot was never written (v = 0), and v + 2 (as
a `uint64_t` sum, the plain sum whenever it does not overflow) if v is odd. -/
theorem C11_enqueue_publishes_next_odd_version {T : Type} [Element T] (cfg : Config)
    (hv : cfg.valid) (readers : List Reader) (ops : List (Op T)) (item : T)
    (q : LockFreeSPMCQueue T)
    (hq : q = (World.run cfg { queue := ctor cfg, readers := readers } ops).queue) :
    (∀ i : Nat, (q.buffer_.getD i default).version_ = 0 ∨
      (q.buffer_.getD i default).version_ % 2 = 1) ∧
    ((get_node cfg q q.write_counter_).version_ = 0 ∨
      (get_node cfg q q.write_counter_).version_ % 2 = 1) ∧
    ((get_node cfg q q.write_counter_).version_ = 0 →
      (get_node cfg (enqueue cfg q item).2 q.write_counter_).version_ = 1) ∧
    ((get_node cfg q q.write_counter_).version_ % 2 = 1 →
      (get_node cfg (enqueue cfg q item).2 q.write_counter_).version_
        = ((get_node cfg q q.write_counter_).version_ + 2) % WORD ∧
      ((get_node cfg q q.write_counter_).version_ + 2 < WORD →
        (get_node cfg (enqueue cfg q item).2 q.write_counter_).version_
          = (get_node cfg q q.write_counter_).version_ + 2)) ∧
    (get_node cfg (enqueue cfg q item).2 q.write_counter_).version_ % 2 = 1 := by
  have hinv : SlotParity cfg (Traced.run cfg (Traced.fresh cfg readers) ops) :=
    slot_parity_run cfg hv ops _ (slot_parity_fresh cfg readers)
  have hw : (Traced.run cfg (Traced.fresh cfg readers : Traced T) ops).world.queue = q := by
    rw [traced_run_world, hq]; rfl
  have hall : ∀ i : Nat, (q.buffer_.getD i default).version_ = 0 ∨
      (q.buffer_.getD i default).version_ % 2 = 1 := by
    intro i
    have := slot_parity_zero_or_odd cfg _ hinv i
    rw [hw] at this
    exact this
  have hlen : q.buffer_.length = BUFFER_SIZE cfg := by
    have := hinv.1
    rw [hw] at this
    exact this
  have hidx : get_node_index cfg q.write_counter_ < q.buffer_.length := by
    rw [hlen]; exact get_node_index_lt cfg hv _
  have hnode : get_node cfg (enqueue cfg q item).2 q.write_counter_ =
      ⟨if (get_node cfg q q.write_counter_).version_ % 2 = 1
        then ((get_node cfg q q.write_counter_).version_ + 2) % WORD
        else ((get_node cfg q q.write_counter_).version_ + 1) % WORD, item⟩ := by
    unfold get_node
    rw [enqueue_node, if_pos ⟨rfl, hidx⟩]
  have htarget := hall (get_node_index cfg q.write_counter_)
  refine ⟨hall, htarget, fun h0 => ?_, fun ho => ⟨?_, fun hlt => ?_⟩, ?_⟩
  · rw [hnode]
    simp only
    have h0' : (get_node cfg q q.write_counter_).version_ = 0 := h0
    rw [h0']
    decide
  · rw [hnode]
    simp only
    rw [if_pos ho]
  · rw [hnode]
    simp only
    rw [if_pos ho, Nat.mod_eq_of_lt hlt]
  · rw [hnode]
    simp only
    split
    · rename_i ho; exact odd_add_two_mod _ ho
    · rename_i ho; exact even_add_one_mod _ (by omega)

theorem C11_enqueue_publishes_next_odd_version_witness :
    (⟨2, 64, 64⟩ : Config).valid ∧
    (get_node ⟨2, 64, 64⟩
      (World.run ⟨2, 64, 64⟩ { queue := ctor ⟨2, 64, 64⟩, readers := [create_reader] }
        [Op.enqueue 10, Op.enqueue 20, Op.read 0]).queue
      (World.run ⟨2, 64, 64⟩ { queue := ctor ⟨2, 64, 64⟩, readers := [create_reader] }
        [Op.enqueue 10, Op.enqueue 20, Op.read 0]).queue.write_counter_).version_ = 3 ∧
    (get_node ⟨2, 64, 64⟩
      (enqueue ⟨2, 64, 64⟩
        (World.run ⟨2, 64, 64⟩ { queue := ctor ⟨2, 64, 64⟩, readers := [create_reader] }
          [Op.enqueue 10, Op.enqueue 20, Op.read 0]).queue 30).2
      (World.run ⟨2, 64, 64⟩ { queue := ctor ⟨2, 64, 64⟩, readers := [create_reader] }
        [Op.enqueue 10, Op.enqueue 20, Op.read 0]).queue.write_counter_).version_ % 2 = 1 :=
  ⟨by decide, by decide,
    (C11_enqueue_publishes_next_odd_version ⟨2, 64, 64⟩ (by decide) [create_reader]
      [Op.enqueue 10, Op.enqueue 20, Op.read 0] 30 _ rfl).2.2.2.2⟩

/-- C12: slot parity invariant.  In every state reachable from a fresh queue by
whole calls (`enqueue`, `try_read_at` and the reader calls), each node's version
is odd exactly when some `enqueue` has written an element into the node (which
then stores the element written last, moved from by the reads since: the
element itself when a move leaves its source unchanged), and is 0 exactly when
no `enqueue` has; the fresh queue has this property and every whole call
preserves it. -/
theorem C12_slot_parity_invariant {T : Type} [Element T] (cfg : Config) (hv : cfg.valid) :
    (∀ readers : List Reader, SlotParity cfg (Traced.fresh cfg readers : Traced T)) ∧
    (∀ (t : Traced T) (op : Op T), SlotParity cfg t → SlotParity cfg (Traced.step cfg t op)) ∧
    (∀ (readers : List Reader) (ops : List (Op T)),
      (Traced.run cfg (Traced.fresh cfg readers) ops).world
        = World.run cfg { queue := ctor cfg, readers := readers } ops ∧
      SlotParity cfg (Traced.run cfg (Traced.fresh cfg readers) ops) ∧
      ∀ s : Nat, s < cfg.SIZE →
        ((slot cfg (World.run cfg { queue := ctor cfg, readers := readers } ops).queue s).version_
            % 2 = 1 ↔
          ∃ x, (Traced.run cfg (Traced.fresh cfg readers) ops).written (PADDING cfg + s)
            = some x) ∧
        ((slot cfg (World.run cfg { queue := ctor cfg, readers := readers } ops).queue s).version_
            = 0 ↔
          (Traced.run cfg (Traced.fresh cfg readers) ops).written (PADDING cfg + s) = none) ∧
        (∀ x, (Traced.run cfg (Traced.fresh cfg readers) ops).written (PADDING cfg + s)
            = some x →
          (∃ n : Nat,
            (slot cfg (World.run cfg { queue := ctor cfg, readers := readers } ops).queue
              s).storage_ = Nat.iterate Element.moved_from n x) ∧
          (MoveIsCopy T →
            (slot cfg (World.run cfg { queue := ctor cfg, readers := readers } ops).queue
              s).storage_ = x))) := by
  refine ⟨fun readers => slot_parity_fresh cfg readers,
    fun t op h => slot_parity_step cfg hv t op h, fun readers ops => ?_⟩
  have hinv : SlotParity cfg (Traced.run cfg (Traced.fresh cfg readers) ops) :=
    slot_parity_run cfg hv ops _ (slot_parity_fresh cfg readers)
  have hw : (Traced.run cfg (Traced.fresh cfg readers : Traced T) ops).world
      = World.run cfg { queue := ctor cfg, readers := readers } ops := by
    rw [traced_run_world]; rfl
  refine ⟨hw, hinv, fun s _ => ?_⟩
  have := hinv.2 (PADDING cfg + s)
  rw [hw] at this
  refine ⟨this.1, this.2.1, fun x hx => ⟨this.2.2 x hx, fun hcopy => ?_⟩⟩
  obtain ⟨n, hn⟩ := this.2.2 x hx
  exact hn.trans (Function.iterate_fixed (hcopy x) n)

theorem C12_slot_parity_invariant_witness :
    (⟨2, 64, 64⟩ : Config).valid ∧
    SlotParity ⟨2, 64, 64⟩
      (Traced.run ⟨2, 64, 64⟩ (Traced.fresh ⟨2, 64, 64⟩ [create_reader])
        [Op.enqueue 10, Op.read 0, Op.enqueue 20, Op.enqueue 30]) ∧
    (Traced.run ⟨2, 64, 64⟩ (Traced.fresh ⟨2, 64, 64⟩ [create_reader])
        [Op.enqueue 10, Op.read 0, Op.enqueue 20, Op.enqueue 30]).written 1 = some 30 ∧
    slot ⟨2, 64, 64⟩
      (World.run ⟨2, 64, 64⟩ { queue := ctor ⟨2, 64, 64⟩, readers := [create_reader] }
        [Op.enqueue 10, Op.read 0, Op.enqueue 20, Op.enqueue 30]).queue 0 = ⟨5, 30⟩ :=
  ⟨by decide,
    ((C12_slot_parity_invariant ⟨2, 64, 64⟩ (by decide)).2.2 [create_reader]
      [Op.enqueue 10, Op.read 0, Op.enqueue 20, Op.enqueue 30]).2.1,
    by decide, by decide⟩

theorem enqueue_version_bounds {T : Type} [Element T] (cfg : Config)
    (q : LockFreeSPMCQueue T) (item : T) (i : Nat)
    (hno : (q.buffer_.getD i default).version_ + 2 < WORD) :
    (q.buffer_.getD i default).version_ ≤
      ((enqueue cfg q item).2.buffer_.getD i default).version_ ∧
    ((enqueue cfg q item).2.buffer_.getD i default).version_ ≤
      (q.buffer_.getD i default).version_ + 2 := by
  rw [enqueue_node]
  split
  · simp only
    split
    · rw [Nat.mod_eq_of_lt hno]; omega
    · rw [Nat.mod_eq_of_lt (by omega)]; omega
  · omega

theorem try_read_at_version_bounds {T : Type} [Element T] (cfg : Config)
    (q : LockFreeSPMCQueue T) (p : Nat) (i : Nat)
    (hno : (q.buffer_.getD i default).version_ + 2 < WORD) :
    (q.buffer_.getD i default).version_ ≤
      ((try_read_at cfg q p).2.buffer_.getD i default).version_ ∧
    ((try_read_at cfg q p).2.buffer_.getD i default).version_ ≤
      (q.buffer_.getD i default).version_ + 2 := by
  rw [try_read_at_node]
  split
  · simp only
    rw [Nat.mod_eq_of_lt hno]; omega
  · omega

theorem step_version_bounds {T : Type} [Element T] (cfg : Config) (w : World T)
    (op : Op T) (i : Nat) (hno : (w.queue.buffer_.getD i default).version_ + 2 < WORD) :
    (w.queue.buffer_.getD i default).version_ ≤
      ((World.step cfg w op).queue.buffer_.getD i default).version_ ∧
    ((World.step cfg w op).queue.buffer_.getD i default).version_ ≤
      (w.queue.buffer_.getD i default).version_ + 2 := by
  rcases step_queue_cases cfg w op with ⟨item, _, hq⟩ | ⟨_, hq | ⟨p, hq⟩⟩
  · rw [hq]; exact enqueue_version_bounds cfg w.queue item i hno
  · rw [hq]; omega
  · rw [hq]; exact try_read_at_version_bounds cfg w.queue p i hno

theorem run_version_bounds {T : Type} [Element T] (cfg : Config) (ops : List (Op T))
    (i : Nat) :
    ∀ w : World T, (w.queue.buffer_.getD i default).version_ + 2 * ops.length < WORD →
      (w.queue.buffer_.getD i default).version_ ≤
        ((World.run cfg w ops).queue.buffer_.getD i default).version_ ∧
      ((World.run cfg w ops).queue.buffer_.getD i default).version_ ≤
        (w.queue.buffer_.getD i default).version_ + 2 * ops.length := by
  induction ops with
  | nil => intro w _; simp [World.run]
  | cons op rest ih =>
    intro w hno
    simp only [List.length_cons] at hno ⊢
    obtain ⟨s1, s2⟩ := step_version_bounds cfg w op i (by omega)
    obtain ⟨r1, r2⟩ := ih (World.step cfg w op) (by omega)
    simp only [World.run, List.foldl_cons] at r1 r2 ⊢
    omega

/-- C13: version monotonicity.  For every node of the buffer and every whole
call (`enqueue`, `try_read_at`, `Reader::read`, `Reader::try_read`, the other
reader calls), the node's version after the call is at least its version before,
64-bit overflow excluded; the same holds over every sequence of calls. -/
theorem C13_versions_never_decrease {T : Type} [Element T] (cfg : Config) (w : World T)
    (i : Nat) :
    ((w.queue.buffer_.getD i default).version_ + 2 < WORD →
      (∀ op : Op T, (w.queue.buffer_.getD i default).version_ ≤
        ((World.step cfg w op).queue.buffer_.getD i default).version_) ∧
      (∀ item : T, (w.queue.buffer_.getD i default).version_ ≤
        ((enqueue cfg w.queue item).2.buffer_.getD i default).version_) ∧
      (∀ p : Nat, (w.queue.buffer_.getD i default).version_ ≤
        ((try_read_at cfg w.queue p).2.buffer_.getD i default).version_) ∧
      (∀ r : Reader,
        (w.queue.buffer_.getD i default).version_ ≤
          ((Reader.read cfg r w.queue).2.2.buffer_.getD i default).version_ ∧
        (w.queue.buffer_.getD i default).version_ ≤
          ((Reader.try_read cfg r w.queue).2.buffer_.getD i default).version_)) ∧
    (∀ ops : List (Op T),
      (w.queue.buffer_.getD i default).version_ + 2 * ops.length < WORD →
      (w.queue.buffer_.getD i default).version_ ≤
        ((World.run cfg w ops).queue.buffer_.getD i default).version_) := by
  refine ⟨fun hno => ⟨fun op => (step_version_bounds cfg w op i hno).1,
    fun item => (enqueue_version_bounds cfg w.queue item i hno).1,
    fun p => (try_read_at_version_bounds cfg w.queue p i hno).1,
    fun r => ⟨(try_read_at_version_bounds cfg w.queue _ i hno).1,
      (try_read_at_version_bounds cfg w.queue _ i hno).1⟩⟩,
    fun ops hno => (run_version_bounds cfg ops i w hno).1⟩

theorem C13_versions_never_decrease_witness :
    ((World.mk (enqueue_all ⟨2, 64, 64⟩ (ctor ⟨2, 64, 64⟩) [10]) [create_reader]).queue.buffer_.getD
        1 default).version_ + 2 * [Op.read 0, Op.enqueue 20, Op.enqueue 30].length < WORD ∧
    ((World.mk (enqueue_all ⟨2, 64, 64⟩ (ctor ⟨2, 64, 64⟩) [10]) [create_reader]).queue.buffer_.getD
        1 default).version_ ≤
      ((World.run ⟨2, 64, 64⟩
        (World.mk (enqueue_all ⟨2, 64, 64⟩ (ctor ⟨2, 64, 64⟩) [10]) [create_reader])
        [Op.read 0, Op.enqueue 20, Op.enqueue 30]).queue.buffer_.getD 1 default).version_ :=
  ⟨by decide,
    (C13_versions_never_decrease ⟨2, 64, 64⟩
      (World.mk (enqueue_all ⟨2, 64, 64⟩ (ctor ⟨2, 64, 64⟩) [10]) [create_reader]) 1).2
      [Op.read 0, Op.enqueue 20, Op.enqueue 30] (by decide)⟩

theorem try_read_at_iterate {T : Type} [Element T] (cfg : Config) (hcopy : MoveIsCopy T)
    (p : Nat) (n : Nat) :
    ∀ q : LockFreeSPMCQueue T,
      (try_read_at cfg (Nat.iterate (fun s => (try_read_at cfg s p).2) n q) p).1
        = (try_read_at cfg q p).1 := by
  induction n with
  | zero => intro q; rfl
  | succ n ih =>
    intro q
    rw [Function.iterate_succ_apply, ih, try_read_at_independent cfg hcopy]

theorem try_read_at_iterate_present {T : Type} [Element T] (cfg : Config) (p : Nat)
    (n : Nat) :
    ∀ q : LockFreeSPMCQueue T,
      (try_read_at cfg (Nat.iterate (fun s => (try_read_at cfg s p).2) n q) p).1.isSome
        = (try_read_at cfg q p).1.isSome := by
  induction n with
  | zero => intro q; rfl
  | succ n ih =>
    intro q
    rw [Function.iterate_succ_apply, ih, try_read_at_present_independent]

/-- C14, as stated for every copyable element type, fails for one whose move
constructor changes its source.  With `std::vector<int>` elements and the value
[1, 2] enqueued, the first `try_read_at(0)` returns [1, 2] and the second, with no
`enqueue` in between, returns the moved-from empty vector. -/
theorem C14_counterexample_second_read_is_moved_from :
    (try_read_at ⟨2, 64, 64⟩ (enqueue_all ⟨2, 64, 64⟩ (ctor ⟨2, 64, 64⟩) [[1, 2]]) 0).1
      = some [1, 2] ∧
    (try_read_at ⟨2, 64, 64⟩
      (try_read_at ⟨2, 64, 64⟩ (enqueue_all ⟨2, 64, 64⟩ (ctor ⟨2, 64, 64⟩) [[1, 2]]) 0).2 0).1
      = some [] ∧
    (try_read_at ⟨2, 64, 64⟩
      (try_read_at ⟨2, 64, 64⟩ (enqueue_all ⟨2, 64, 64⟩ (ctor ⟨2, 64, 64⟩) [[1, 2]]) 0).2 0).1
      ≠ some [1, 2] := by
  decide

/-- C14 (amended): reads do not consume.  For every state and position p where
`try_read_at(p)` returns a present value x, calling `try_read_at(p)` again with
no `enqueue` in between returns a present value, and so does every later call,
whatever other positions are read in between: the +2 version bump of a read does
not make the slot unavailable.  For an element type whose move constructor
leaves its source unchanged (a trivially copyable type such as `int`) that value
is x. -/
theorem C14_reads_do_not_consume {T : Type} [Element T] (cfg : Config)
    (q : LockFreeSPMCQueue T) (p : Nat) (x : T) (hx : (try_read_at cfg q p).1 = some x) :
    (try_read_at cfg (try_read_at cfg q p).2 p).1.isSome = true ∧
    (∀ n : Nat,
      (try_read_at cfg (Nat.iterate (fun s => (try_read_at cfg s p).2) n q) p).1.isSome
        = true) ∧
    (∀ p' : Nat,
      (try_read_at cfg (try_read_at cfg (try_read_at cfg q p).2 p').2 p).1.isSome = true) ∧
    (MoveIsCopy T →
      (try_read_at cfg (try_read_at cfg q p).2 p).1 = some x ∧
      (∀ n : Nat,
        (try_read_at cfg (Nat.iterate (fun s => (try_read_at cfg s p).2) n q) p).1 = some x) ∧
      (∀ p' : Nat,
        (try_read_at cfg (try_read_at cfg (try_read_at cfg q p).2 p').2 p).1 = some x)) := by
  have hs : (try_read_at cfg q p).1.isSome = true := by rw [hx]; rfl
  refine ⟨by rw [try_read_at_present_independent, hs],
    fun n => by rw [try_read_at_iterate_present, hs],
    fun p' => by rw [try_read_at_present_independent, try_read_at_present_independent, hs],
    fun hcopy => ⟨by rw [try_read_at_independent cfg hcopy, hx],
      fun n => by rw [try_read_at_iterate cfg hcopy, hx],
      fun p' => by
        rw [try_read_at_independent cfg hcopy, try_read_at_independent cfg hcopy, hx]⟩⟩

theorem C14_reads_do_not_consume_witness :
    (try_read_at ⟨2, 64, 64⟩ (enqueue_all ⟨2, 64, 64⟩ (ctor ⟨2, 64, 64⟩) [10]) 0).1 = some 10 ∧
    MoveIsCopy Nat ∧
    (try_read_at ⟨2, 64, 64⟩
      (try_read_at ⟨2, 64, 64⟩ (enqueue_all ⟨2, 64, 64⟩ (ctor ⟨2, 64, 64⟩) [10]) 0).2 0).1
      = some 10 :=
  ⟨by decide, fun _ => rfl,
    ((C14_reads_do_not_consume ⟨2, 64, 64⟩ (enqueue_all ⟨2, 64, 64⟩ (ctor ⟨2, 64, 64⟩) [10])
      0 10 (by decide)).2.2.2 (fun _ => rfl)).1⟩

theorem read_present_position {T : Type} [Element T] (cfg : Config) (r : Reader)
    (q : LockFreeSPMCQueue T) (x : T) (h : (Reader.read cfg r q).1 = some x) :
    (Reader.read cfg r q).2.1.position = (r.position + 1) % WORD := by
  have hx : (try_read_at cfg q r.read_position_).1 = some x := h
  simp only [Reader.read, Reader.try_read, hx, Reader.position]
  rfl

/-- C15, as stated, fails: `reset(p)` sets the cursor to any p, also a lower one
(a reader at position 5 is at position 0 after `reset(0)`), and `advance(n)`
wraps at the word size (a reader at the largest `size_t` is at position 0 after
`advance(1)`). -/
theorem C15_counterexample_reset_rewinds :
    (create_reader_at 5).position = 5 ∧
    (Reader.reset (create_reader_at 5) 0).position = 0 ∧
    (Reader.reset (create_reader_at 5) 0).position < (create_reader_at 5).position ∧
    (Reader.advance (create_reader_at (WORD - 1)) 1).position = 0 ∧
    (Reader.advance (create_reader_at (WORD - 1)) 1).position
      < (create_reader_at (WORD - 1)).position := by
  decide

/-- C15 (amended): a reader's position never decreases under `try_read`, `read`
and `advance(n)` as long as the `size_t` cursor does not overflow: `try_read`
leaves the reader as it is, `read` leaves the position or adds 1, `advance(n)`
adds n.  `reset(p)` sets the position to p, whatever it was before. -/
theorem C15_position_monotone_without_reset {T : Type} [Element T] (cfg : Config)
    (r : Reader) (q : LockFreeSPMCQueue T) :
    (∀ (w : World T) (i : Nat), (World.step cfg w (Op.try_read i)).readers = w.readers) ∧
    (r.position + 1 < WORD →
      r.position ≤ (Reader.read cfg r q).2.1.position ∧
      (Reader.read cfg r q).2.1.position ≤ r.position + 1) ∧
    (∀ n : Nat, r.position + n < WORD →
      (Reader.advance r n).position = r.position + n ∧
      r.position ≤ (Reader.advance r n).position) ∧
    (∀ p : Nat, (Reader.reset r p).position = p) := by
  refine ⟨fun w i => ?_, fun hlt => ?_, fun n hlt => ?_, fun p => rfl⟩
  · simp only [World.step]
    cases w.readers[i]? <;> rfl
  · cases hres : (Reader.read cfg r q).1 with
    | none =>
      rw [read_absent_reader cfg r q hres]
      exact ⟨Nat.le_refl _, Nat.le_succ _⟩
    | some x =>
      have := read_present_position cfg r q x hres
      rw [Nat.mod_eq_of_lt hlt] at this
      omega
  · have : (Reader.advance r n).position = r.position + n := by
      simp only [Reader.advance, Reader.position]
      exact Nat.mod_eq_of_lt hlt
    omega

theorem C15_position_monotone_without_reset_witness :
    create_reader.position + 1 < WORD ∧
    create_reader.position ≤ (Reader.read ⟨2, 64, 64⟩ create_reader
      (enqueue_all ⟨2, 64, 64⟩ (ctor ⟨2, 64, 64⟩) [10])).2.1.position ∧
    create_reader.position + 7 < WORD ∧
    (Reader.advance create_reader 7).position = create_reader.position + 7 :=
  ⟨by decide,
    ((C15_position_monotone_without_reset ⟨2, 64, 64⟩ create_reader
      (enqueue_all ⟨2, 64, 64⟩ (ctor ⟨2, 64, 64⟩) [10])).2.1 (by decide)).1,
    by decide,
    ((C15_position_monotone_without_reset ⟨2, 64, 64⟩ create_reader
      (enqueue_all ⟨2, 64, 64⟩ (ctor ⟨2, 64, 64⟩) [10])).2.2.1 7 (by decide)).1⟩

/-- C16, as stated for every element type, fails for one whose move constructor
changes its source.  With `std::vector<int>` elements and the value [1, 2]
enqueued, a reader at position 0 gets [1, 2] from its first `try_read()` and the
moved-from empty vector from its second, with no `read()`, `advance()` or
`enqueue` in between: the repeated call does not return the same element. -/
theorem C16_counterexample_repeated_try_read_differs :
    (Reader.try_read ⟨2, 64, 64⟩ create_reader
      (enqueue_all ⟨2, 64, 64⟩ (ctor ⟨2, 64, 64⟩) [[1, 2]])).1 = some [1, 2] ∧
    (Reader.try_read ⟨2, 64, 64⟩ create_reader
      (Reader.try_read ⟨2, 64, 64⟩ create_reader
        (enqueue_all ⟨2, 64, 64⟩ (ctor ⟨2, 64, 64⟩) [[1, 2]])).2).1 = some [] ∧
    (Reader.try_read ⟨2, 64, 64⟩ create_reader
      (Reader.try_read ⟨2, 64, 64⟩ create_reader
        (enqueue_all ⟨2, 64, 64⟩ (ctor ⟨2, 64, 64⟩) [[1, 2]])).2).1
      ≠ (Reader.try_read ⟨2, 64, 64⟩ create_reader
        (enqueue_all ⟨2, 64, 64⟩ (ctor ⟨2, 64, 64⟩) [[1, 2]])).1 := by
  decide

/-- C16 (amended): `Reader::try_read()` returns exactly what the queue's
`try_read_at(position())` returns and leaves the queue as that call leaves it; it
never changes the reader, on failure and on success alike; hence repeated
`try_read()` calls with no `read()`, `advance()` or `enqueue` in between keep
reading the same position: they are present or absent as the first call was,
and for an element type whose move constructor leaves its source unchanged (a
trivially copyable type such as `int`) they keep returning the same element. -/
theorem C16_try_read_delegates_and_keeps_position {T : Type} [Element T] (cfg : Config)
    (r : Reader) (q : LockFreeSPMCQueue T) :
    Reader.try_read cfg r q = try_read_at cfg q r.position ∧
    (∀ (w : World T) (i : Nat),
      (World.step cfg w (Op.try_read i)).readers = w.readers ∧
      ∀ r0 : Reader, w.readers[i]? = some r0 →
        (World.step cfg w (Op.try_read i)).queue = (try_read_at cfg w.queue r0.position).2) ∧
    (Reader.try_read cfg r (Reader.try_read cfg r q).2).1.isSome
      = (Reader.try_read cfg r q).1.isSome ∧
    (∀ n : Nat,
      (Reader.try_read cfg r (Nat.iterate (fun s => (Reader.try_read cfg r s).2) n q)).1.isSome
        = (try_read_at cfg q r.position).1.isSome) ∧
    (MoveIsCopy T →
      (Reader.try_read cfg r (Reader.try_read cfg r q).2).1 = (Reader.try_read cfg r q).1 ∧
      (∀ n : Nat,
        (Reader.try_read cfg r (Nat.iterate (fun s => (Reader.try_read cfg r s).2) n q)).1
          = (try_read_at cfg q r.position).1)) := by
  refine ⟨rfl, fun w i => ⟨?_, fun r0 h0 => ?_⟩,
    try_read_at_present_independent cfg q _ _,
    fun n => try_read_at_iterate_present cfg r.read_position_ n q,
    fun hcopy => ⟨try_read_at_independent cfg hcopy q _ _,
      fun n => try_read_at_iterate cfg hcopy r.read_position_ n q⟩⟩
  · simp only [World.step]
    cases w.readers[i]? <;> rfl
  · simp only [World.step, h0]
    rfl

theorem C16_try_read_delegates_and_keeps_position_witness :
    MoveIsCopy Nat ∧
    (Reader.try_read ⟨2, 64, 64⟩ create_reader
      (enqueue_all ⟨2, 64, 64⟩ (ctor ⟨2, 64, 64⟩) [10])).1 = some 10 ∧
    (Reader.try_read ⟨2, 64, 64⟩ create_reader
      (Reader.try_read ⟨2, 64, 64⟩ create_reader
        (enqueue_all ⟨2, 64, 64⟩ (ctor ⟨2, 64, 64⟩) [10])).2).1
      = (Reader.try_read ⟨2, 64, 64⟩ create_reader
        (enqueue_all ⟨2, 64, 64⟩ (ctor ⟨2, 64, 64⟩) [10])).1 ∧
    (World.mk (enqueue_all ⟨2, 64, 64⟩ (ctor ⟨2, 64, 64⟩) [10]) [create_reader]).readers[0]?
      = some create_reader ∧
    (World.step ⟨2, 64, 64⟩
      (World.mk (enqueue_all ⟨2, 64, 64⟩ (ctor ⟨2, 64, 64⟩) [10]) [create_reader])
      (Op.try_read 0)).queue
      = (try_read_at ⟨2, 64, 64⟩ (enqueue_all ⟨2, 64, 64⟩ (ctor ⟨2, 64, 64⟩) [10])
          create_reader.position).2 :=
  ⟨fun _ => rfl, by decide,
    ((C16_try_read_delegates_and_keeps_position ⟨2, 64, 64⟩ create_reader
      (enqueue_all ⟨2, 64, 64⟩ (ctor ⟨2, 64, 64⟩) [10])).2.2.2.2 (fun _ => rfl)).1,
    by decide,
    ((C16_try_read_delegates_and_keeps_position ⟨2, 64, 64⟩ create_reader
      (enqueue_all ⟨2, 64, 64⟩ (ctor ⟨2, 64, 64⟩) [10])).2.1
      (World.mk (enqueue_all ⟨2, 64, 64⟩ (ctor ⟨2, 64, 64⟩) [10]) [create_reader]) 0).2
      create_reader (by decide)⟩

theorem is_power_of_two_iff (cfg : Config) (h1 : 1 ≤ cfg.SIZE) (h2 : cfg.SIZE < WORD) :
    IS_POWER_OF_TWO cfg = true ↔ ∃ n, cfg.SIZE = 2 ^ n := by
  unfold IS_POWER_OF_TWO
  simp only [CAPACITY, wrapping_pred _ h1 h2, beq_iff_eq]
  constructor
  · exact pow_two_of_land_pred _ h1
  · rintro ⟨n, hn⟩
    rw [hn, Nat.and_pow_two_sub_one_eq_mod, Nat.mod_self]

/-- C17: index mapping equivalence.  For every capacity C with 1 ≤ C (C a
`size_t`) that is a power of two (exactly the capacities for which
`IS_POWER_OF_TWO` holds) and every logical position idx, the masked index
`idx & (C - 1)` used by `get_node` equals `idx % C`; so on both branches
`get_node` selects the physical slot `PADDING + (idx mod C)` of the
specification (for constants whose buffer size fits `size_t`). -/
theorem C17_masked_index_equals_modulo (cfg : Config) (h1 : 1 ≤ cfg.SIZE)
    (h2 : cfg.SIZE < WORD) (idx : Nat) :
    (IS_POWER_OF_TWO cfg = true ↔ ∃ n, cfg.SIZE = 2 ^ n) ∧
    (IS_POWER_OF_TWO cfg = true →
      INDEX_MASK cfg = CAPACITY cfg - 1 ∧
      idx &&& (CAPACITY cfg - 1) = idx % CAPACITY cfg ∧
      idx &&& INDEX_MASK cfg = idx % CAPACITY cfg) ∧
    (cfg.valid → get_node_index cfg idx = spec_physical_index cfg idx) := by
  refine ⟨is_power_of_two_iff cfg h1 h2, fun hp => ?_,
    fun hv => get_node_index_eq cfg hv idx⟩
  obtain ⟨n, hn⟩ := (is_power_of_two_iff cfg h1 h2).mp hp
  have hmask : INDEX_MASK cfg = CAPACITY cfg - 1 := by
    simp only [INDEX_MASK, hp, if_true, CAPACITY, wrapping_pred _ h1 h2]
  have hand : idx &&& (CAPACITY cfg - 1) = idx % CAPACITY cfg := by
    simp only [CAPACITY]
    rw [hn, Nat.and_pow_two_sub_one_eq_mod]
  exact ⟨hmask, hand, by rw [hmask, hand]⟩

theorem C17_masked_index_equals_modulo_witness :
    1 ≤ (⟨8, 64, 64⟩ : Config).SIZE ∧ (⟨8, 64, 64⟩ : Config).SIZE < WORD ∧
    IS_POWER_OF_TWO ⟨8, 64, 64⟩ = true ∧
    13 &&& INDEX_MASK ⟨8, 64, 64⟩ = 13 % CAPACITY ⟨8, 64, 64⟩ ∧
    (⟨6, 64, 64⟩ : Config).valid ∧
    get_node_index ⟨6, 64, 64⟩ 13 = spec_physical_index ⟨6, 64, 64⟩ 13 :=
  ⟨by decide, by decide, by decide,
    ((C17_masked_index_equals_modulo ⟨8, 64, 64⟩ (by decide) (by decide) 13).2.1
      (by decide)).2.2,
    by decide,
    (C17_masked_index_equals_modulo ⟨6, 64, 64⟩ (by decide) (by decide) 13).2.2 (by decide)⟩

/-- C18, as stated for every capacity and padding, fails when `C + 2 * PADDING`
overflows `size_t`.  With `SIZE = 2^64 - 1` and one padding node, `BUFFER_SIZE`
wraps to 1, so the constructor allocates one node, while `get_node(0)` selects
subscript 1, which is not below `BUFFER_SIZE`: `enqueue` and `try_read_at` reach
outside the buffer. -/
theorem C18_counterexample_buffer_size_wraps :
    1 ≤ (⟨WORD - 1, 64, 64⟩ : Config).SIZE ∧
    PADDING ⟨WORD - 1, 64, 64⟩ = 1 ∧
    BUFFER_SIZE ⟨WORD - 1, 64, 64⟩ = 1 ∧
    (ctor ⟨WORD - 1, 64, 64⟩ : LockFreeSPMCQueue Nat).buffer_.length = 1 ∧
    get_node_index ⟨WORD - 1, 64, 64⟩ 0 = 1 ∧
    ¬ (get_node_index ⟨WORD - 1, 64, 64⟩ 0 < BUFFER_SIZE ⟨WORD - 1, 64, 64⟩) ∧
    BUFFER_SIZE ⟨WORD - 1, 64, 64⟩
      ≠ CAPACITY ⟨WORD - 1, 64, 64⟩ + 2 * PADDING ⟨WORD - 1, 64, 64⟩ := by
  decide

/-- C18 (amended): index safety.  For every capacity C with 1 ≤ C and every
padding value for which C + 2 * PADDING does not overflow `size_t`, and every
logical position idx, the subscript computed by `get_node` lies in
[PADDING, PADDING + C), hence strictly below BUFFER_SIZE = C + 2 * PADDING;
`enqueue` and `try_read_at` therefore leave every padding node and everything
outside the buffer untouched, and keep the buffer's length. -/
theorem C18_index_stays_inside_capacity_window {T : Type} [Element T] (cfg : Config)
    (hv : cfg.valid) (idx : Nat) :
    PADDING cfg ≤ get_node_index cfg idx ∧
    get_node_index cfg idx < PADDING cfg + CAPACITY cfg ∧
    get_node_index cfg idx < BUFFER_SIZE cfg ∧
    BUFFER_SIZE cfg = CAPACITY cfg + 2 * PADDING cfg ∧
    (∀ P : Nat, PADDING ⟨cfg.SIZE, P, 1⟩ = P) ∧
    (∀ (q : LockFreeSPMCQueue T) (item : T) (i : Nat),
      i < PADDING cfg ∨ PADDING cfg + CAPACITY cfg ≤ i →
      (enqueue cfg q item).2.buffer_[i]? = q.buffer_[i]?) ∧
    (∀ (q : LockFreeSPMCQueue T) (p : Nat) (i : Nat),
      i < PADDING cfg ∨ PADDING cfg + CAPACITY cfg ≤ i →
      (try_read_at cfg q p).2.buffer_[i]? = q.buffer_[i]?) ∧
    (∀ (q : LockFreeSPMCQueue T) (item : T) (p : Nat),
      (enqueue cfg q item).2.buffer_.length = q.buffer_.length ∧
      (try_read_at cfg q p).2.buffer_.length = q.buffer_.length) := by
  have hwin : ∀ j : Nat, PADDING cfg ≤ get_node_index cfg j ∧
      get_node_index cfg j < PADDING cfg + CAPACITY cfg := by
    intro j
    rw [get_node_index_eq cfg hv]
    have := Nat.mod_lt j (show cfg.SIZE > 0 from hv.1)
    unfold CAPACITY
    omega
  refine ⟨(hwin idx).1, (hwin idx).2, get_node_index_lt cfg hv idx, BUFFER_SIZE_eq cfg hv,
    fun P => by simp [PADDING], fun q item i hi => ?_, fun q p i hi => ?_,
    fun q item p => ⟨enqueue_length cfg q item, try_read_at_length cfg q p⟩⟩
  · rw [enqueue_buffer, List.getElem?_set_ne]
    have := hwin q.write_counter_
    omega
  · rcases Nat.mod_two_eq_zero_or_one (get_node cfg q p).version_ with h | h
    · rw [try_read_at_even cfg q p h]
    · rw [try_read_at_odd cfg q p h]
      simp only
      rw [List.getElem?_set_ne]
      have := hwin p
      omega

theorem C18_index_stays_inside_capacity_window_witness :
    (⟨3, 64, 64⟩ : Config).valid ∧
    PADDING ⟨3, 64, 64⟩ ≤ get_node_index ⟨3, 64, 64⟩ 7 ∧
    get_node_index ⟨3, 64, 64⟩ 7 < PADDING ⟨3, 64, 64⟩ + CAPACITY ⟨3, 64, 64⟩ ∧
    get_node_index ⟨3, 64, 64⟩ 7 < BUFFER_SIZE ⟨3, 64, 64⟩ :=
  ⟨by decide,
    (@C18_index_stays_inside_capacity_window Nat _ ⟨3, 64, 64⟩ (by decide) 7).1,
    (@C18_index_stays_inside_capacity_window Nat _ ⟨3, 64, 64⟩ (by decide) 7).2.1,
    (@C18_index_stays_inside_capacity_window Nat _ ⟨3, 64, 64⟩ (by decide) 7).2.2.1⟩

theorem enqueue_count_cons_other {T : Type} (op : Op T) (rest : List (Op T))
    (h : ∀ item, op ≠ Op.enqueue item) : enqueue_count (op :: rest) = enqueue_count rest := by
  cases op with
  | enqueue item => exact absurd rfl (h item)
  | try_read_at position => rfl
  | create_reader => rfl
  | create_reader_at position => rfl
  | try_read i => rfl
  | read i => rfl
  | advance i count => rfl
  | reset i position => rfl

/-- Availability is kept by every call that does not wrap the write counter: a
slot has an odd version exactly when it lies below the write counter. -/
theorem available_step {T : Type} [Element T] (cfg : Config) (hv : cfg.valid)
    (w : World T) (op : Op T)
    (hl : w.queue.buffer_.length = BUFFER_SIZE cfg)
    (ha : ∀ s, s < cfg.SIZE → ((slot cfg w.queue s).version_ % 2 = 1 ↔ s < w.queue.write_counter_))
    (hno : w.queue.write_counter_ + enqueue_count [op] < WORD) :
    (World.step cfg w op).queue.buffer_.length = BUFFER_SIZE cfg ∧
    ∀ s, s < cfg.SIZE → ((slot cfg (World.step cfg w op).queue s).version_ % 2 = 1 ↔
      s < (World.step cfg w op).queue.write_counter_) := by
  have hwc := step_write_counter cfg w op
  rcases step_queue_cases cfg w op with ⟨item, rfl, hq⟩ | ⟨hne, hq⟩
  · simp only [enqueue_count] at hno
    simp only at hwc
    rw [Nat.mod_eq_of_lt (by omega)] at hwc
    rw [hwc, hq]
    refine ⟨by rw [enqueue_length, hl], fun s hs => ?_⟩
    rw [slot_enqueue cfg hv w.queue hl item s hs]
    have hmod := Nat.mod_lt w.queue.write_counter_ (show cfg.SIZE > 0 from hv.1)
    by_cases hsw : s = w.queue.write_counter_ % cfg.SIZE
    · rw [if_pos hsw]
      simp only
      have hodd : (if (slot cfg w.queue s).version_ % 2 = 1
          then ((slot cfg w.queue s).version_ + 2) % WORD
          else ((slot cfg w.queue s).version_ + 1) % WORD) % 2 = 1 := by
        split
        · rename_i ho; exact odd_add_two_mod _ ho
        · rename_i ho; exact even_add_one_mod _ (by omega)
      have hle := Nat.mod_le w.queue.write_counter_ cfg.SIZE
      exact ⟨fun _ => by omega, fun _ => hodd⟩
    · rw [if_neg hsw, ha s hs]
      constructor
      · intro h; omega
      · intro h
        by_contra hcon
        have : s = w.queue.write_counter_ := by omega
        apply hsw
        rw [← this, Nat.mod_eq_of_lt hs]
  · have hwc' : (World.step cfg w op).queue.write_counter_ = w.queue.write_counter_ := by
      rcases hq with hq | ⟨p, hq⟩
      · rw [hq]
      · rw [hq, try_read_at_write_counter]
    rw [hwc']
    rcases hq with hq | ⟨p, hq⟩
    · rw [hq]; exact ⟨hl, ha⟩
    · rw [hq]
      refine ⟨by rw [try_read_at_length, hl], fun s hs => ?_⟩
      rw [slot_try_read_at cfg hv w.queue hl p s hs, ← ha s hs]
      split
      · rename_i hc
        simp only
        exact ⟨fun _ => hc.2, fun _ => odd_add_two_mod _ hc.2⟩
      · exact Iff.rfl

theorem available_run {T : Type} [Element T] (cfg : Config) (hv : cfg.valid)
    (ops : List (Op T)) :
    ∀ w : World T, w.queue.buffer_.length = BUFFER_SIZE cfg →
    (∀ s, s < cfg.SIZE → ((slot cfg w.queue s).version_ % 2 = 1 ↔ s < w.queue.write_counter_)) →
    w.queue.write_counter_ + enqueue_count ops < WORD →
    (World.run cfg w ops).queue.buffer_.length = BUFFER_SIZE cfg ∧
    ∀ s, s < cfg.SIZE → ((slot cfg (World.run cfg w ops).queue s).version_ % 2 = 1 ↔
      s < (World.run cfg w ops).queue.write_counter_) := by
  induction ops with
  | nil => intro w hl ha _; exact ⟨hl, ha⟩
  | cons op rest ih =>
    intro w hl ha hno
    have hone : w.queue.write_counter_ + enqueue_count [op] < WORD ∧
        (World.step cfg w op).queue.write_counter_ + enqueue_count rest < WORD := by
      have hwc := step_write_counter cfg w op
      rcases step_queue_cases cfg w op with ⟨item, rfl, _⟩ | ⟨hne, _⟩
      · simp only [enqueue_count] at hno ⊢
        simp only at hwc
        rw [Nat.mod_eq_of_lt (by omega)] at hwc
        omega
      · rw [enqueue_count_cons_other op rest hne] at hno
        rw [enqueue_count_cons_other op [] hne]
        have : (World.step cfg w op).queue.write_counter_ = w.queue.write_counter_ := by
          cases op with
          | enqueue item => exact absurd rfl (hne item)
          | try_read_at position => exact hwc
          | create_reader => exact hwc
          | create_reader_at position => exact hwc
          | try_read i => exact hwc
          | read i => exact hwc
          | advance i count => exact hwc
          | reset i position => exact hwc
        simp only [enqueue_count]
        omega
    obtain ⟨s1, s2⟩ := available_step cfg hv w op hl ha hone.1
    have := ih (World.step cfg w op) s1 s2 hone.2
    simp only [World.run, List.foldl_cons] at this ⊢
    exact this

/-- C20: availability.  In every state reachable from a fresh queue of capacity
C with 1 ≤ C by enqueue and read operations, with the write counter not
overflowed, `try_read_at(p)` returns a present value if and only if
p mod C < `write_position()`.  Hence for p < C it is present exactly when
`empty_at(p)` is false, and once `write_position()` ≥ C it is present for every
p, including every p ≥ `write_position()`, for which `empty_at(p)` is true. -/
theorem C20_present_iff_slot_below_write_position {T : Type} [Element T] (cfg : Config)
    (hv : cfg.valid) (readers : List Reader) (ops : List (Op T))
    (hno : enqueue_count ops < WORD) (q : LockFreeSPMCQueue T)
    (hq : q = (World.run cfg { queue := ctor cfg, readers := readers } ops).queue) :
    (∀ p : Nat, (try_read_at cfg q p).1.isSome = true ↔ p % cfg.SIZE < write_position q) ∧
    (∀ p : Nat, p < cfg.SIZE →
      ((try_read_at cfg q p).1.isSome = true ↔ empty_at q p = false)) ∧
    (cfg.SIZE ≤ write_position q →
      (∀ p : Nat, (try_read_at cfg q p).1.isSome = true) ∧
      (∀ p : Nat, write_position q ≤ p →
        empty_at q p = true ∧ (try_read_at cfg q p).1.isSome = true)) := by
  have hfresh : ∀ s, s < cfg.SIZE →
      ((slot cfg (ctor cfg : LockFreeSPMCQueue T) s).version_ % 2 = 1 ↔
        s < (ctor cfg : LockFreeSPMCQueue T).write_counter_) := by
    intro s _
    rw [slot_ctor]
    have hz : (default : Node T).version_ = 0 := rfl
    rw [hz]
    simp [ctor]
  obtain ⟨_, ha⟩ := available_run cfg hv ops { queue := ctor cfg, readers := readers }
    (by simp [ctor]) hfresh (by simpa [ctor] using hno)
  rw [← hq] at ha
  have hm : ∀ p : Nat, p % cfg.SIZE < cfg.SIZE := fun p =>
    Nat.mod_lt p (show cfg.SIZE > 0 from hv.1)
  have hmain : ∀ p : Nat,
      (try_read_at cfg q p).1.isSome = true ↔ p % cfg.SIZE < write_position q := by
    intro p
    rw [try_read_at_fst cfg hv q p]
    show _ ↔ p % cfg.SIZE < q.write_counter_
    rw [← ha (p % cfg.SIZE) (hm p)]
    split
    · rename_i ho; simp [ho]
    · rename_i ho; simp [ho]
  refine ⟨hmain, fun p hp => ?_, fun hC => ⟨fun p => ?_, fun p hp => ⟨?_, ?_⟩⟩⟩
  · rw [hmain p, Nat.mod_eq_of_lt hp]
    simp [empty_at, write_position]
  · rw [hmain p]; have := hm p; omega
  · simpa [empty_at, write_position] using hp
  · rw [hmain p]; have := hm p; omega

theorem C20_present_iff_slot_below_write_position_witness :
    (⟨2, 64, 64⟩ : Config).valid ∧
    enqueue_count [Op.enqueue 10, Op.read 0, Op.enqueue 20] < WORD ∧
    (⟨2, 64, 64⟩ : Config).SIZE ≤ write_position
      (World.run ⟨2, 64, 64⟩ { queue := ctor ⟨2, 64, 64⟩, readers := [create_reader] }
        [Op.enqueue 10, Op.read 0, Op.enqueue 20]).queue ∧
    empty_at (World.run ⟨2, 64, 64⟩ { queue := ctor ⟨2, 64, 64⟩, readers := [create_reader] }
        [Op.enqueue 10, Op.read 0, Op.enqueue 20]).queue 7 = true ∧
    (try_read_at ⟨2, 64, 64⟩
      (World.run ⟨2, 64, 64⟩ { queue := ctor ⟨2, 64, 64⟩, readers := [create_reader] }
        [Op.enqueue 10, Op.read 0, Op.enqueue 20]).queue 7).1.isSome = true :=
  ⟨by decide, by decide, by decide,
    ((C20_present_iff_slot_below_write_position ⟨2, 64, 64⟩ (by decide) [create_reader]
      [Op.enqueue 10, Op.read 0, Op.enqueue 20] (by decide) _ rfl).2.2 (by decide)).2 7
      (by decide)⟩

theorem range_filter_window_length (a b : Nat) (n : Nat) :
    ((List.range n).filter (fun i => decide (a ≤ i ∧ i < b))).length = min n b - a := by
  induction n with
  | zero => simp
  | succ n ih =>
    rw [List.range_succ, List.filter_append, List.length_append, ih]
    by_cases h : a ≤ n ∧ n < b
    · simp only [List.filter_cons, h, and_self, decide_True, if_true, List.filter_nil,
        List.length_singleton]
      omega
    · simp only [List.filter_cons, h, decide_False, List.filter_nil, List.length_nil]
      simp only [Bool.false_eq_true, if_false, List.length_nil]
      omega

theorem enqueue_outside_window {T : Type} [Element T] (cfg : Config) (hv : cfg.valid)
    (q : LockFreeSPMCQueue T) (item : T) (i : Nat)
    (hi : i < PADDING cfg ∨ PADDING cfg + cfg.SIZE ≤ i) :
    (enqueue cfg q item).2.buffer_[i]? = q.buffer_[i]? := by
  rw [enqueue_buffer, List.getElem?_set_ne]
  rw [get_node_index_eq cfg hv]
  have := Nat.mod_lt q.write_counter_ (show cfg.SIZE > 0 from hv.1)
  omega

theorem enqueue_all_outside_window {T : Type} [Element T] (cfg : Config) (hv : cfg.valid)
    (vs : List T) (i : Nat) (hi : i < PADDING cfg ∨ PADDING cfg + cfg.SIZE ≤ i) :
    ∀ q : LockFreeSPMCQueue T, (enqueue_all cfg q vs).buffer_[i]? = q.buffer_[i]? := by
  induction vs with
  | nil => intro q; rfl
  | cons v rest ih =>
    intro q
    simp only [enqueue_all, List.foldl_cons]
    have := ih (enqueue cfg q v).2
    simp only [enqueue_all] at this
    rw [this, enqueue_outside_window cfg hv q v i hi]

/-- After N enqueues on a fresh queue the nodes with an odd version are the
first min(N, C) slots behind the leading padding. -/
theorem enqueue_all_odd_nodes {T : Type} [Element T] (cfg : Config) (hv : cfg.valid)
    (vs : List T) (hW : vs.length ≤ WORD) (i : Nat) :
    ((enqueue_all cfg (ctor cfg) vs).buffer_.getD i default).version_ % 2 = 1 ↔
      PADDING cfg ≤ i ∧ i < PADDING cfg + min vs.length cfg.SIZE := by
  obtain ⟨⟨_, hs⟩, _⟩ := published_enqueue_all cfg hv vs hW
  by_cases hwin : PADDING cfg ≤ i ∧ i < PADDING cfg + cfg.SIZE
  · obtain ⟨s, rfl⟩ : ∃ s, i = PADDING cfg + s := ⟨i - PADDING cfg, by omega⟩
    have hsC : s < cfg.SIZE := by omega
    obtain ⟨h0, h1, _⟩ := hs s hsC
    unfold slot at h0 h1
    constructor
    · intro ho
      by_contra hcon
      have := h0 (by omega)
      omega
    · intro hlt
      exact h1 (by omega)
  · have hout : i < PADDING cfg ∨ PADDING cfg + cfg.SIZE ≤ i := by omega
    have hsame := enqueue_all_outside_window cfg hv vs i hout (ctor cfg)
    have hd : (enqueue_all cfg (ctor cfg) vs).buffer_.getD i default = default := by
      rw [List.getD_eq_getElem?_getD, hsame]
      simp only [ctor, List.getElem?_replicate]
      split <;> rfl
    rw [hd]
    have hz : (default : Node T).version_ = 0 := rfl
    rw [hz]
    constructor
    · intro h; omega
    · intro h; omega

theorem dtor_length_enqueue_all {T : Type} [Element T] (cfg : Config) (hv : cfg.valid)
    (vs : List T) (hW : vs.length ≤ WORD) :
    (dtor (enqueue_all cfg (ctor cfg) vs)).length = min vs.length cfg.SIZE := by
  have hlen : (enqueue_all cfg (ctor cfg) vs).buffer_.length = BUFFER_SIZE cfg :=
    (published_enqueue_all cfg hv vs hW).1.1
  have h := (dtor_once_per_odd_node (enqueue_all cfg (ctor cfg) vs)).1
  have hl : (dtor (enqueue_all cfg (ctor cfg) vs)).length
      = ((dtor (enqueue_all cfg (ctor cfg) vs)).map Prod.fst).length := by simp
  rw [hl, h, List.filter_congr (q := fun i =>
      decide (PADDING cfg ≤ i ∧ i < PADDING cfg + min vs.length cfg.SIZE))]
  · rw [List.filter_reverse, List.length_reverse, range_filter_window_length, hlen,
      BUFFER_SIZE_eq cfg hv]
    omega
  · intro i hi
    have hi' : i < (enqueue_all cfg (ctor cfg) vs).buffer_.length := by
      simpa using hi
    have hodd := enqueue_all_odd_nodes cfg hv vs hW i
    rw [List.getD_eq_getElem?_getD, List.getElem?_eq_getElem hi'] at hodd
    rw [List.getElem?_eq_getElem hi']
    simp only [Option.getD_some] at hodd
    by_cases hc : PADDING cfg ≤ i ∧ i < PADDING cfg + min vs.length cfg.SIZE
    · simp [hc, hodd.mpr hc]
    · have : ¬ ((enqueue_all cfg (ctor cfg) vs).buffer_[i].version_ % 2 = 1) :=
        fun ho => hc (hodd.mp ho)
      simp [hc, this]

theorem lifetime_trace_counts {T : Type} [Element T] (cfg : Config) (vs : List T) :
    ∀ q : LockFreeSPMCQueue T,
      (lifetime_trace cfg q vs).countP Lifetime.isConstruct = vs.length ∧
      (lifetime_trace cfg q vs).countP Lifetime.isDestroy
        = (dtor (enqueue_all cfg q vs)).length := by
  induction vs with
  | nil =>
    intro q
    simp only [lifetime_trace, dtor_lifetime, enqueue_all, List.foldl_nil, List.length_nil]
    constructor
    · rw [List.countP_eq_zero]
      intro e he
      obtain ⟨p, _, rfl⟩ := List.mem_map.mp he
      simp [Lifetime.isConstruct]
    · rw [List.countP_eq_length.mpr, List.length_map]
      intro e he
      obtain ⟨p, _, rfl⟩ := List.mem_map.mp he
      rfl
  | cons v rest ih =>
    intro q
    obtain ⟨i1, i2⟩ := ih (enqueue cfg q v).2
    simp only [lifetime_trace, enqueue_lifetime, List.countP_append, List.length_cons]
    refine ⟨?_, ?_⟩
    · rw [i1]; simp [List.countP_cons, Lifetime.isConstruct]; omega
    · rw [i2]; simp [List.countP_cons, Lifetime.isDestroy, enqueue_all]

/-- C19: pre-overwrite destruction gap.  When `enqueue` targets a slot whose
version is odd, it constructs the new element in the storage that holds the old
one and makes no destructor call; consequently, for N enqueues (N a count within
the range of the 64-bit write counter) into a fresh queue of capacity C followed
by destruction of the queue, the element constructor has run N times and the
element destructor min(N, C) times, which leaves N - C elements never destroyed
whenever N > C. -/
theorem C19_overwrite_skips_destruction {T : Type} [Element T] (cfg : Config)
    (hv : cfg.valid) (vs : List T) (hW : vs.length ≤ WORD) :
    (∀ (q : LockFreeSPMCQueue T) (item : T), q.buffer_.length = BUFFER_SIZE cfg →
      (get_node cfg q q.write_counter_).version_ % 2 = 1 →
      enqueue_lifetime cfg q item
        = [Lifetime.construct (get_node_index cfg q.write_counter_) item] ∧
      (enqueue_lifetime cfg q item).countP Lifetime.isDestroy = 0 ∧
      (get_node cfg (enqueue cfg q item).2 q.write_counter_).storage_ = item) ∧
    (lifetime_trace cfg (ctor cfg) vs).countP Lifetime.isConstruct = vs.length ∧
    (lifetime_trace cfg (ctor cfg) vs).countP Lifetime.isDestroy = min vs.length cfg.SIZE ∧
    (dtor (enqueue_all cfg (ctor cfg) vs)).length = min vs.length cfg.SIZE ∧
    (cfg.SIZE < vs.length →
      (lifetime_trace cfg (ctor cfg) vs).countP Lifetime.isConstruct
        - (lifetime_trace cfg (ctor cfg) vs).countP Lifetime.isDestroy
        = vs.length - cfg.SIZE) := by
  obtain ⟨c1, c2⟩ := lifetime_trace_counts cfg vs (ctor cfg)
  have hd := dtor_length_enqueue_all cfg hv vs hW
  refine ⟨fun q item hl _ => ⟨rfl, rfl, ?_⟩, c1, by rw [c2, hd], hd, fun hlt => ?_⟩
  · have hidx : get_node_index cfg q.write_counter_ < q.buffer_.length := by
      rw [hl]; exact get_node_index_lt cfg hv _
    unfold get_node
    rw [enqueue_node, if_pos ⟨rfl, hidx⟩]
  · rw [c1, c2, hd]
    omega

theorem C19_overwrite_skips_destruction_witness :
    (⟨2, 64, 64⟩ : Config).valid ∧ [10, 20, 30].length ≤ WORD ∧
    lifetime_trace ⟨2, 64, 64⟩ (ctor ⟨2, 64, 64⟩) [10, 20, 30]
      = [Lifetime.construct 1 10, Lifetime.construct 2 20, Lifetime.construct 1 30,
          Lifetime.destroy 2 20, Lifetime.destroy 1 30] ∧
    (lifetime_trace ⟨2, 64, 64⟩ (ctor ⟨2, 64, 64⟩) [10, 20, 30]).countP Lifetime.isConstruct
      = [10, 20, 30].length ∧
    (lifetime_trace ⟨2, 64, 64⟩ (ctor ⟨2, 64, 64⟩) [10, 20, 30]).countP Lifetime.isDestroy
      = min [10, 20, 30].length (⟨2, 64, 64⟩ : Config).SIZE :=
  ⟨by decide, by decide, by decide,
    (C19_overwrite_skips_destruction ⟨2, 64, 64⟩ (by decide) [10, 20, 30] (by decide)).2.1,
    (C19_overwrite_skips_destruction ⟨2, 64, 64⟩ (by decide) [10, 20, 30] (by decide)).2.2.1⟩

end SPMC
